import Mathlib

/-!
Shallow embedding of the TOML-like configuration codec
(`src/js/libraries/toml_like.js`, first iteration, lines 1-620) and proofs
about its specification claims.

Modelling conventions:
* JavaScript strings are modelled as `List Char` (a JS string iterated with
  `yield*` yields Unicode code points, which is what `Char` holds); the
  UTF-16 length used by `.length` is modelled by `jsLen`.
* JavaScript numbers are modelled exactly: a finite number is an exact
  rational (`ℚ`), NaN and ±Infinity are explicit constructors.  This
  idealises IEEE-754 doubles as exact decimals; all theorems that touch
  numeric round-trips restrict to values with finite decimal expansions,
  where the idealisation agrees with the shortest-round-trip printing of
  doubles.
* A JavaScript `Date` is modelled by its UTC field decomposition
  (year/month/day/hour/minute/second/millisecond); two `Date`s are equal
  exactly when their time values are equal, which for normalised field
  tuples is field-wise equality.
* The engine's environment time zone (`getTimezoneOffset`) is an explicit
  parameter `tzMin` threaded through encode and decode.
-/

namespace TomlSpec

/-- characters matched by the JavaScript regular expression class `\s`
(whitespace), used by `matchNext` to skip blanks and by `String.trim`. -/
def isJsSpace (c : Char) : Bool :=
  c == ' ' || c == '\t' || c == '\n' || c == '\x0d' || c == '\x0c' || c == '\x0b' ||
  c == '\u00A0' || c == '\u1680' || (0x2000 ≤ c.toNat && c.toNat ≤ 0x200A) ||
  c == '\u2028' || c == '\u2029' || c == '\u202F' || c == '\u205F' ||
  c == '\u3000' || c == '\uFEFF'

/-- JavaScript `String.prototype.trim`: drop leading and trailing `\s`. -/
def jsTrim (s : List Char) : List Char :=
  ((s.dropWhile isJsSpace).reverse.dropWhile isJsSpace).reverse

/-- the UTF-16 length of one code point (JS `.length` counts UTF-16 units,
so astral code points count twice). -/
def jsLenChar (c : Char) : Nat :=
  if c.toNat < 0x10000 then 1 else 2

/-- JavaScript `.length` of a string: its number of UTF-16 code units. -/
def jsLen (s : List Char) : Nat :=
  (s.map jsLenChar).sum

/-- the left-brace character (written by code point to keep literals plain). -/
def lb : Char := Char.ofNat 123

/-- the right-brace character. -/
def rb : Char := Char.ofNat 125

/-- decimal digit character of a digit value. -/
def digitCh (d : Nat) : Char := Char.ofNat (48 + d)

/-- decimal digits of a positive natural, most significant first (the
first argument is fuel; `natDigits` supplies `n`, which suffices since
each step divides by 10). -/
def natDigitsGo : Nat → Nat → List Char
  | _, 0 => []
  | 0, _ + 1 => []
  | fuel + 1, n + 1 => natDigitsGo fuel ((n + 1) / 10) ++ [digitCh ((n + 1) % 10)]

/-- decimal digits of a natural number, most significant first (empty
for 0). -/
def natDigits (n : Nat) : List Char :=
  natDigitsGo n n

/-- JavaScript decimal printing of a natural number (`${n}`). -/
def natToStr (n : Nat) : List Char :=
  if n = 0 then ['0'] else natDigits n

/-- JavaScript decimal printing of an integer (`${i}`). -/
def intToStr (i : Int) : List Char :=
  if i < 0 then '-' :: natToStr i.natAbs else natToStr i.natAbs

/-- `num.toString().padStart(size, "0")` for natural numbers. -/
def padStart0 (n : Nat) (size : Nat) : List Char :=
  let s := natToStr n
  List.replicate (size - s.length) '0' ++ s

/-- global single-character replacement, JS `value.replace(regex, repl)`
with a one-character pattern. -/
def jsReplaceChar (t : Char) (r : List Char) : List Char → List Char
  | [] => []
  | c :: cs => (if c == t then r else [c]) ++ jsReplaceChar t r cs

/-- the escaping pass of `repr`: for each code in `["\\", "r", "n", "t",
"f", "v"]` (in this order) replace the matched character globally by its
backslash escape.  The first pass doubles backslashes; the later passes
replace the control characters CR, LF, TAB, FF, VT. -/
def reprEscape (s : List Char) : List Char :=
  let s := jsReplaceChar '\\' ['\\', '\\'] s
  let s := jsReplaceChar '\x0d' ['\\', 'r'] s
  let s := jsReplaceChar '\n' ['\\', 'n'] s
  let s := jsReplaceChar '\t' ['\\', 't'] s
  let s := jsReplaceChar '\x0c' ['\\', 'f'] s
  jsReplaceChar '\x0b' ['\\', 'v'] s

/-- take a prefix of at most `budget` UTF-16 units, whole code points only
(models `value.slice(0, maxLength)`; the source never slices in the middle
of a surrogate pair in the situations exercised here). -/
def takeUtf16 (budget : Nat) : List Char → List Char
  | [] => []
  | c :: cs =>
    if jsLenChar c ≤ budget then c :: takeUtf16 (budget - jsLenChar c) cs
    else []

/-- `repr(value, {maxLength})` of the source for string arguments: wrap in
`«NNBSP … NNBSP»`, escape backslashes and control characters, and truncate
over-long results to `maxLength` UTF-16 units followed by `… [+n] »`.
(The decoder only ever calls `repr` on strings.) -/
def reprStr (s : List Char) (maxLength : Nat) : List Char :=
  let v := '«' :: '\u202F' :: (s ++ ['\u202F', '»'])
  let v := reprEscape v
  let over : Int := (jsLen v : Int) - (maxLength : Int)
  if 0 < over then
    takeUtf16 maxLength v ++ ('…' :: ' ' :: '[' :: '+' :: natToStr over.natAbs ++ [']', '\u202F', '»'])
  else v

/-- `repr` with the default `maxLength` of 60. -/
def reprStr60 (s : List Char) : List Char := reprStr s 60

/-! ## JavaScript numbers -/

/-- an exact rational with an unreduced representation (numerator over a
positive denominator).  The codec's numeric computations are closed over
the few operations below, none of which needs a gcd, so every function
built on `Q` evaluates inside the kernel; `toRat` is the value view used
by the proofs.  Two `Q`s denote the same JavaScript number when their
cross products agree, which is how document equality compares numbers. -/
structure Q where
  num : Int
  den : Nat
deriving DecidableEq

/-- the rational value of a `Q` (for reasoning). -/
def Q.toRat (a : Q) : ℚ := (a.num : ℚ) / (a.den : ℚ)

/-- embed an integer. -/
def Q.ofInt (i : Int) : Q := ⟨i, 1⟩

/-- addition (no normalisation). -/
def Q.add (a b : Q) : Q := ⟨a.num * b.den + b.num * a.den, a.den * b.den⟩

/-- multiplication (no normalisation). -/
def Q.mul (a b : Q) : Q := ⟨a.num * b.num, a.den * b.den⟩

/-- division by a power of ten. -/
def Q.divPow10 (a : Q) (k : Nat) : Q := ⟨a.num, a.den * 10 ^ k⟩

/-- the floor of the value. -/
def Q.floor (a : Q) : Int := a.num.fdiv a.den

/-- is the representation meaningful (positive denominator). -/
def Q.WF (a : Q) : Prop := 0 < a.den

/-- do two representations denote the same number. -/
def Q.valEq (a b : Q) : Prop := a.num * b.den = b.num * a.den

instance (a b : Q) : Decidable (a.valEq b) := by unfold Q.valEq; infer_instance

/-- a JavaScript number as the codec observes it: NaN, a signed infinity,
or a finite value modelled as an exact rational. -/
inductive JsNum where
  | nan : JsNum
  | inf (neg : Bool) : JsNum
  | fin (q : Q) : JsNum
deriving DecidableEq

/-- fueled core of `factorCount`. -/
def factorCountGo : Nat → Nat → Nat → Nat
  | 0, _, _ => 0
  | fuel + 1, p, n =>
    if 1 < p ∧ 0 < n ∧ n % p = 0 then factorCountGo fuel p (n / p) + 1 else 0

/-- how many times `p` divides `n` (for extracting powers of 2 and 5 from
a denominator). -/
def factorCount (p n : Nat) : Nat := factorCountGo n p n

/-- fueled core of `strip10`. -/
def strip10Go : Nat → Nat → Nat × Nat
  | 0, n => (n, 0)
  | fuel + 1, n =>
    if 0 < n ∧ n % 10 = 0 then
      let p := strip10Go fuel (n / 10)
      (p.1, p.2 + 1)
    else (n, 0)

/-- strip factors of 10 from a positive natural, returning `(d, z)` with
`n = d * 10^z` and `¬ 10 ∣ d` (for `n = 0` returns `(0, 0)`). -/
def strip10 (n : Nat) : Nat × Nat := strip10Go n n

/-- number of decimal digits of a positive natural (0 for 0). -/
def digitCount (n : Nat) : Nat := (natDigits n).length

/-- format a positive exact decimal from its minimal digits `D` (not
divisible by 10) and the exponent `n` with value `D * 10 ^ (n - k)` where
`k = digitCount D`, following ES `Number::toString` (base 10):
positional for `-6 < n ≤ 21`, scientific otherwise. -/
def formatDecimal (D : Nat) (n : Int) : List Char :=
  let ds := natDigits D
  let k : Int := ds.length
  if k ≤ n ∧ n ≤ 21 then
    ds ++ List.replicate (n - k).natAbs '0'
  else if 0 < n ∧ n ≤ 21 then
    ds.take n.natAbs ++ '.' :: ds.drop n.natAbs
  else if -6 < n ∧ n ≤ 0 then
    '0' :: '.' :: List.replicate (-n).natAbs '0' ++ ds
  else
    let e := n - 1
    let mantissa := if ds.length = 1 then ds else ds.take 1 ++ '.' :: ds.drop 1
    mantissa ++ 'e' :: (if 0 ≤ e then '+' :: natToStr e.natAbs else '-' :: natToStr e.natAbs)

/-- Modelled from the platform: JavaScript number-to-string (`${q}`) for a
positive rational.  When the value has a finite decimal expansion this
produces exactly the ES `Number::toString` output for the ideal decimal
value; for other rationals (which no double is, and which no theorem
exercises) it truncates at 20 fractional digits. -/
def posQToStr (q : Q) : List Char :=
  let m := max (factorCount 2 q.den) (factorCount 5 q.den)
  let scaledNum := q.num * (10 : Int) ^ m
  if scaledNum % (q.den : Int) = 0 then
    let N := (scaledNum / (q.den : Int)).natAbs
    let p := strip10 N
    formatDecimal p.1 ((digitCount p.1 : Int) + (p.2 : Int) - (m : Int))
  else
    let N := ((q.num * (10 : Int) ^ (20 : Nat)).fdiv (q.den : Int)).natAbs
    let p := strip10 N
    formatDecimal p.1 ((digitCount p.1 : Int) + (p.2 : Int) - 20)

/-- JavaScript `${q}` for a finite number (`0` prints `"0"`, negative
numbers get a leading minus; `-0` does not exist in the exact model, and
JS prints it as `"0"` anyway). -/
def qToStr (q : Q) : List Char :=
  if q.num = 0 then ['0']
  else if q.num < 0 then '-' :: posQToStr ⟨-q.num, q.den⟩
  else posQToStr q

/-- is the character an ASCII decimal digit. -/
def isDigitCh (c : Char) : Bool := 48 ≤ c.toNat && c.toNat ≤ 57

/-- the longest digit prefix and the rest. -/
def spanDigits (s : List Char) : List Char × List Char :=
  (s.takeWhile isDigitCh, s.dropWhile isDigitCh)

/-- numeric value of a digit string (most significant first). -/
def digitsVal (s : List Char) : Nat :=
  s.foldl (fun a c => a * 10 + (c.toNat - 48)) 0

/-- result of JavaScript `Number(string)` when it is not NaN. -/
inductive JsParsed where
  | finite (q : Q) : JsParsed
  | infinite (neg : Bool) : JsParsed
deriving DecidableEq

/-- hexadecimal digit value, if any. -/
def hexVal (c : Char) : Option Nat :=
  if 48 ≤ c.toNat ∧ c.toNat ≤ 57 then some (c.toNat - 48)
  else if 97 ≤ c.toNat ∧ c.toNat ≤ 102 then some (c.toNat - 87)
  else if 65 ≤ c.toNat ∧ c.toNat ≤ 70 then some (c.toNat - 55)
  else none

/-- the unsigned decimal part of a string numeric literal:
`digits [. digits?] | . digits`, followed by an optional exponent
`e|E [+|-] digits`; returns its exact value. -/
def parseDecimalBody (s : List Char) : Option Q :=
  let (ip, r1) := spanDigits s
  let (fp, r2) :=
    match r1 with
    | '.' :: t => let (fp, r) := spanDigits t; (fp, r)
    | _ => ([], r1)
  if ip.isEmpty ∧ fp.isEmpty then none
  else
    let base : Q := (Q.ofInt (digitsVal ip)).add ((Q.ofInt (digitsVal fp)).divPow10 fp.length)
    match r2 with
    | [] => some base
    | e :: t =>
      if e == 'e' ∨ e == 'E' then
        let (sgn, t2) :=
          match t with
          | '+' :: u => (false, u)
          | '-' :: u => (true, u)
          | _ => (false, t)
        let (ed, r3) := spanDigits t2
        if ed.isEmpty ∨ ¬ r3.isEmpty then none
        else if sgn then some (base.divPow10 (digitsVal ed))
        else some (base.mul (Q.ofInt ((10 : Int) ^ digitsVal ed)))
      else none

/-- value of a non-empty string of base-`b` digits via `digVal`. -/
def baseDigitsVal (digVal : Char → Option Nat) (b : Nat) (s : List Char) : Option Nat :=
  match s with
  | [] => none
  | _ =>
    s.foldlM (fun a c => do
      let d ← digVal c
      pure (a * b + d)) 0

/-- Modelled from the platform: JavaScript `Number(string)` (ES ToNumber on
strings): trim, empty means 0, optional sign on a decimal literal or
`Infinity`, unsigned `0x`/`0o`/`0b` radix literals; anything else is NaN
(`none`).  Exact-rational idealisation: no overflow to Infinity. -/
def jsStrToNumber (s : List Char) : Option JsParsed :=
  let t := jsTrim s
  match t with
  | [] => some (.finite (Q.ofInt 0))
  | '0' :: x :: rest =>
    if x == 'x' ∨ x == 'X' then
      (baseDigitsVal hexVal 16 rest).map (fun n => .finite (Q.ofInt n))
    else if x == 'o' ∨ x == 'O' then
      (baseDigitsVal (fun c => if 48 ≤ c.toNat ∧ c.toNat ≤ 55 then some (c.toNat - 48) else none) 8 rest).map (fun n => .finite (Q.ofInt n))
    else if x == 'b' ∨ x == 'B' then
      (baseDigitsVal (fun c => if c == '0' then some 0 else if c == '1' then some 1 else none) 2 rest).map (fun n => .finite (Q.ofInt n))
    else
      (parseDecimalBody t).map .finite
  | _ =>
    let (neg, body) :=
      match t with
      | '+' :: u => (false, u)
      | '-' :: u => (true, u)
      | _ => (false, t)
    if body = ['I', 'n', 'f', 'i', 'n', 'i', 't', 'y'] then
      some (.infinite neg)
    else
      (parseDecimalBody body).map (fun q => .finite (if neg then q.mul (Q.ofInt (-1)) else q))

/-! ## JavaScript dates (modelled by their UTC field decomposition) -/

/-- a JavaScript `Date`, modelled by the UTC fields its accessors expose;
two `Date`s have equal time values exactly when these tuples are equal
(for normalised tuples). -/
structure JsDate where
  year : Int
  month : Nat
  day : Nat
  hour : Nat
  minute : Nat
  second : Nat
  ms : Nat
deriving DecidableEq

/-- Gregorian leap-year rule. -/
def isLeapYear (y : Int) : Bool :=
  (y % 4 == 0 && y % 100 != 0) || y % 400 == 0

/-- days in a month (1-12) of a year. -/
def daysInMonth (y : Int) (m : Nat) : Nat :=
  if m = 2 then (if isLeapYear y then 29 else 28)
  else if m = 4 ∨ m = 6 ∨ m = 9 ∨ m = 11 then 30
  else 31

/-- normalise a possibly out-of-range day-of-month by walking months
(the fuel is chosen large enough for the given excess; each step moves
at least 28 days). -/
def normDay : Nat → Int → Nat → Int → Int × Nat × Nat
  | 0, y, m, d => (y, m, d.natAbs)
  | fuel + 1, y, m, d =>
    if d < 1 then
      let y' := if m = 1 then y - 1 else y
      let m' := if m = 1 then 12 else m - 1
      normDay fuel y' m' (d + daysInMonth y' m')
    else if (daysInMonth y m : Int) < d then
      let y' := if m = 12 then y + 1 else y
      let m' := if m = 12 then 1 else m + 1
      normDay fuel y' m' (d - daysInMonth y m)
    else (y, m, d.natAbs)

/-- Modelled from the platform: `Date.UTC(y, mo0, d, h, mi, s, ms)` (with
`mo0` zero-based) followed by reading the UTC fields back: millisecond
truncation and the cascade of carries into seconds, minutes, hours, days,
months and years.  Matches ECMAScript `MakeDay`/`MakeTime`/`TimeClip` for
the in-range and carry cases the codec exercises. -/
def jsDateUTC (y mo0 d h mi s : Int) (ms : Q) : JsDate :=
  let msI : Int := ms.floor
  let s2 := s + msI.fdiv 1000
  let msN := (msI.emod 1000).natAbs
  let mi2 := mi + s2.fdiv 60
  let sN := (s2.emod 60).natAbs
  let h2 := h + mi2.fdiv 60
  let miN := (mi2.emod 60).natAbs
  let dayShift := h2.fdiv 24
  let hN := (h2.emod 24).natAbs
  let y2 := y + mo0.fdiv 12
  let m2 := (mo0.emod 12).natAbs + 1
  let dTot := d + dayShift
  let r := normDay (dTot.natAbs + 400) y2 m2 dTot
  ⟨r.1, r.2.1, r.2.2, hN, miN, sN, msN⟩

/-- shift a date's instant by `delta` milliseconds (models
`date.setTime(date.getTime() + delta)`; time is linear, so this is the
UTC constructor applied to the fields with adjusted milliseconds). -/
def dateAddMs (dt : JsDate) (delta : Int) : JsDate :=
  jsDateUTC dt.year ((dt.month : Int) - 1) dt.day dt.hour dt.minute dt.second
    (Q.ofInt ((dt.ms : Int) + delta))

/-- a field tuple as `Date`'s UTC accessors would actually produce it. -/
def JsDate.Normalized (d : JsDate) : Prop :=
  1 ≤ d.month ∧ d.month ≤ 12 ∧ 1 ≤ d.day ∧ d.day ≤ daysInMonth d.year d.month ∧
  d.hour ≤ 23 ∧ d.minute ≤ 59 ∧ d.second ≤ 59 ∧ d.ms ≤ 999

instance (d : JsDate) : Decidable d.Normalized := by
  unfold JsDate.Normalized; infer_instance

/-- `encodeDate` of the source: `YYYY-MM-DD HH:MM:SS[.mmm] UTC±H[H][:MM]`,
built from the UTC fields; `tzMin` is what `getTimezoneOffset()` returns
in the running environment. -/
def encodeDate (tzMin : Int) (input : JsDate) : List Char :=
  let year := intToStr input.year
  let month := padStart0 input.month 2
  let day := padStart0 input.day 2
  let h := padStart0 input.hour 2
  let mn := padStart0 input.minute 2
  let s := padStart0 input.second 2
  let ms := padStart0 input.ms 3
  let localDate := year ++ '-' :: month ++ '-' :: day
  let localTime :=
    if ms = ['0', '0', '0'] then h ++ ':' :: mn ++ ':' :: s
    else h ++ ':' :: mn ++ ':' :: s ++ '.' :: ms
  let localDateTime := localDate ++ ' ' :: localTime
  let minOffset : Int := -tzMin
  let hOffset := padStart0 (minOffset.natAbs / 60) 2
  let offsetSign := if 0 ≤ minOffset then '+' else '-'
  let minOffsetS := padStart0 (minOffset.natAbs % 60) 2
  let offset :=
    if minOffsetS = ['0', '0'] then
      offsetSign :: (if hOffset.head? = some '0' then hOffset.drop 1 else hOffset)
    else offsetSign :: hOffset ++ ':' :: minOffsetS
  localDateTime ++ ' ' :: 'U' :: 'T' :: 'C' :: offset

/-! ### the date literal parser (`matchDate`) -/

/-- lower-case an ASCII letter. -/
def lowerCh (c : Char) : Char :=
  if 65 ≤ c.toNat ∧ c.toNat ≤ 90 then Char.ofNat (c.toNat + 32) else c

/-- read exactly `n` decimal digits. -/
def takeNDigits : Nat → List Char → Option (Nat × List Char)
  | 0, s => some (0, s)
  | _ + 1, [] => none
  | n + 1, c :: s =>
    if isDigitCh c then
      (takeNDigits n s).map (fun p => ((c.toNat - 48) * 10 ^ n + p.1, p.2))
    else none

/-- drop a run of ASCII spaces (the regex separator ` *`). -/
def dropSpaces (s : List Char) : List Char := s.dropWhile (· == ' ')

/-- the structured result of the date regular expression match. -/
structure DateParts where
  year : Nat
  month : Nat
  day : Nat
  hour : Nat
  minute : Nat
  second : Nat
  frac : List Char
  offset : Option (Bool × Nat × Option Nat)
deriving DecidableEq

/-- try to read the time group `\d{2}:\d{2}(:\d{2}(\.\d+)?)?`; `none`
means the group is absent (nothing consumed), `some none` means the
group begins to match but the remainder can never complete the pattern
(the whole regular expression fails). -/
def readTime (s : List Char) : Option (Option ((Nat × Nat × Nat × List Char) × List Char)) :=
  match takeNDigits 2 s with
  | none => none
  | some (h, r1) =>
    match r1 with
    | ':' :: r2 =>
      match takeNDigits 2 r2 with
      | none => none
      | some (mi, r3) =>
        match r3 with
        | ':' :: r4 =>
          match takeNDigits 2 r4 with
          | none => some none
          | some (sec, r5) =>
            match r5 with
            | '.' :: r6 =>
              let (fr, r7) := spanDigits r6
              if fr.isEmpty then some none
              else some (some ((h, mi, sec, fr), r7))
            | _ => some (some ((h, mi, sec, []), r5))
        | _ => some (some ((h, mi, 0, []), r3))
    | _ => none

/-- the offset tail `(?:UTC)? *([+-] *(?:\d{2}:\d{2}|\d{1,2}))?$`:
returns the parsed offset (or `none` for an absent offset) when the rest
of the input matches, otherwise fails. -/
def readOffsetEnd (s : List Char) : Option (Option (Bool × Nat × Option Nat)) :=
  let afterUtc :=
    match s with
    | u :: t :: c :: r =>
      if lowerCh u == 'u' ∧ lowerCh t == 't' ∧ lowerCh c == 'c' then some (dropSpaces r) else none
    | _ => none
  let core (hadUtc : Bool) (s : List Char) : Option (Option (Bool × Nat × Option Nat)) :=
    match s with
    | [] => if hadUtc then none else some none
    | sign :: r =>
      if sign == '+' ∨ sign == '-' then
        let r := dropSpaces r
        let (ds, rest) := spanDigits r
        match ds, rest with
        | [a, b], ':' :: r2 =>
          match takeNDigits 2 r2 with
          | some (mn, []) =>
            some (some (sign == '-', (a.toNat - 48) * 10 + (b.toNat - 48), some mn))
          | _ => none
        | _, _ =>
          if (ds.length = 1 ∨ ds.length = 2) ∧ rest.isEmpty then
            some (some (sign == '-', digitsVal ds, none))
          else none
      else none
  match afterUtc with
  | some r => core true r
  | none => core false s

/-- the whole date pattern
`^date((?:T| *)time?)? *offset?$` with
`date = \d{4}-\d{2}-\d{2}|\d{4}/\d{2}/\d{2}` (case-insensitive). -/
def readDateParts (raw : List Char) : Option DateParts := do
  let (y, r1) ← takeNDigits 4 raw
  let (sep, r2) ←
    match r1 with
    | c :: r => if c == '-' ∨ c == '/' then some (c, r) else none
    | [] => none
  let (mo, r3) ← takeNDigits 2 r2
  let r4 ←
    match r3 with
    | c :: r => if c == sep then some r else none
    | [] => none
  let (d, r5) ← takeNDigits 2 r4
  let r6 :=
    match r5 with
    | c :: r => if lowerCh c == 't' then r else dropSpaces r5
    | [] => []
  let (time, r7) ←
    match readTime r6 with
    | none => some ((0, 0, 0, ([] : List Char)), r6)
    | some none => none
    | some (some (t, r)) => some (t, r)
  let off ← readOffsetEnd (dropSpaces r7)
  pure ⟨y, mo, d, time.1, time.2.1, time.2.2.1, time.2.2.2, off⟩

/-- `matchDate` of the source: match the date pattern against the raw
text, validate field ranges, build the `Date` (UTC-normalising when an
offset is present, interpreting the fields in the environment's local
time otherwise). -/
def matchDate (tzMin : Int) (raw : List Char) : Except (List Char) JsDate :=
  match readDateParts raw with
  | none => .error ('d' :: 'a' :: 't' :: 'e' :: ' ' :: reprStr60 raw ++ (' ' :: "invalid".data))
  | some p =>
    if 12 < p.month ∨ 31 < p.day ∨ 24 < p.hour ∨ 60 < p.minute ∨ 60 < p.second then
      .error ('d' :: 'a' :: 't' :: 'e' :: ' ' :: reprStr60 raw ++ (' ' :: "invalid".data))
    else
      let ms : Q := ((Q.ofInt (digitsVal p.frac)).divPow10 p.frac.length).mul (Q.ofInt 1000)
      let base := jsDateUTC p.year ((p.month : Int) - 1) p.day p.hour p.minute p.second ms
      match p.offset with
      | some (neg, hOff, mnOff) =>
        let msOffset : Int := ((hOff : Int) * 60 + (mnOff.getD 0 : Nat)) * 60 * 1000
        let msOffset := if neg then -msOffset else msOffset
        .ok (dateAddMs base (-msOffset))
      | none => .ok (dateAddMs base (tzMin * 60000))

/-! ## the value model and the encoder -/

/-- the tagged value union shared by decoder output and encoder input.
`undef` is JavaScript `undefined`, accepted by the encoder only. -/
inductive Val where
  | str (s : List Char) : Val
  | num (n : JsNum) : Val
  | date (d : JsDate) : Val
  | boolV (b : Bool) : Val
  | nullV : Val
  | undef : Val
  | arr (xs : List Val) : Val
  | table (es : List (List Char × Val)) : Val

/-- the tag returned by `getValueType`. -/
inductive ValType where
  | STRING | NUMBER | DATE | KEYWORD | ARRAY | MAP
deriving DecidableEq

/-- `getValueType` of the source (every modelled value is implemented;
the JS `unimplemented` branch is unreachable over this value type). -/
def getValueType : Val → ValType
  | .str _ => .STRING
  | .num _ => .NUMBER
  | .date _ => .DATE
  | .boolV _ | .nullV | .undef => .KEYWORD
  | .arr _ => .ARRAY
  | .table _ => .MAP

/-- encoder errors, abstracted to their category (the source raises a
single `ConfigError` whose message begins with the category's template). -/
inductive EncErr where
  | invalidKeyChar (c : Char) (key : List Char) : EncErr
  | circular : EncErr
deriving DecidableEq

/-- result of a fueled computation: success, a raised error, or fuel
exhaustion (the fuel is a termination device only; every use in this file
supplies enough of it, which the theorems make explicit). -/
inductive Res (ε : Type) (α : Type) where
  | ok (a : α) : Res ε α
  | err (e : ε) : Res ε α
  | fuel : Res ε α
deriving DecidableEq

/-- is the character allowed in a key (`/[a-z0-9_-]/i`). -/
def isKeyChar (c : Char) : Bool :=
  (97 ≤ c.toNat && c.toNat ≤ 122) || (65 ≤ c.toNat && c.toNat ≤ 90) ||
  (48 ≤ c.toNat && c.toNat ≤ 57) || c == '_' || c == '-'

/-- `checkKey` of the source: trim, then reject the first character not
in `[a-z0-9_-]` (case-insensitive).  Keys are strings by construction in
the model, so the string-type check cannot fire. -/
def checkKey (key : List Char) : Except EncErr (List Char) :=
  let k := jsTrim key
  match k.find? (fun c => ¬ isKeyChar c) with
  | some c => .error (.invalidKeyChar c k)
  | none => .ok k

/-- `encodeString`: double-quote, escaping only the double quote. -/
def encodeString (s : List Char) : List Char :=
  '"' :: (jsReplaceChar '"' ['\\', '"'] s ++ ['"'])

/-- `encodeNumber`: default decimal text for finite numbers, the
uppercased JS spelling (`NAN`, `INFINITY`, `-INFINITY`) otherwise. -/
def encodeNumber : JsNum → List Char
  | .fin q => qToStr q
  | .nan => "NAN".data
  | .inf false => "INFINITY".data
  | .inf true => '-' :: "INFINITY".data

/-- does a root-level entry hold a table (`getValueType(v) === "MAP"`). -/
def Val.isTable : Val → Bool
  | .table _ => true
  | _ => false

/-- the pending call of the defunctionalised encoder: the mutually
recursive source functions `encodeValue` / `encodeArray` (with its
element mapping) / `encodeMap` (with its three entry renderers) become
one fuel-structural function `encodeGo` over this call type, so that the
kernel can evaluate it; the wrappers below restore the source names. -/
inductive EncCall where
  | value (input : Val) (level : Nat) (levelUpIfNotMap : Bool) : EncCall
  | arrayItems (xs : List Val) (level : Nat) : EncCall
  | array (xs : List Val) (level : Nat) : EncCall
  | rootEntries (es : List (List Char × Val)) (i : Nat) : EncCall
  | l1Entries (es : List (List Char × Val)) : EncCall
  | inlineEntries (es : List (List Char × Val)) (level : Nat) : EncCall
  | mapTable (es : List (List Char × Val)) (level : Nat) : EncCall

/-- the result of one defunctionalised encoder call. -/
inductive EncOut where
  | value (vt : ValType) (text : List Char) : EncOut
  | items (rs : List (List Char)) : EncOut
  | text (t : List Char) : EncOut
  | entries (ps : List (List Char × List Char)) : EncOut
deriving DecidableEq

/-- the encoder engine; each arm is the body of the corresponding source
function (see the wrappers below for the correspondence).  The
`references` in-progress set of the source is identity-based; on the
tree-shaped values of this model a value can never be its own strict
ancestor, so the set can never contain the argument and is omitted here
(the heap model below keeps it).  Fuel is decremented on every call; the
JS recursion has no bound, and every theorem supplies enough fuel. -/
def encodeGo : Nat → Int → EncCall → Res EncErr EncOut
  | 0, _, _ => .fuel
  | fuel + 1, tzMin, call =>
    match call with
    | .value input level levelUpIfNotMap =>
      match input with
      | .str s => .ok (.value .STRING (encodeString s))
      | .num n => .ok (.value .NUMBER (encodeNumber n))
      | .date d => .ok (.value .DATE (encodeDate tzMin d))
      | .undef => .ok (.value .KEYWORD "NULL".data)
      | .nullV => .ok (.value .KEYWORD "NULL".data)
      | .boolV b => .ok (.value .KEYWORD (if b then "TRUE".data else "FALSE".data))
      | .arr xs =>
        match encodeGo fuel tzMin (.array xs (if levelUpIfNotMap then level + 1 else level)) with
        | .ok (.text r) => .ok (.value .ARRAY r)
        | .err e => .err e
        | _ => .fuel
      | .table es =>
        match encodeGo fuel tzMin (.mapTable es (level + 1)) with
        | .ok (.text r) => .ok (.value .MAP r)
        | .err e => .err e
        | _ => .fuel
    | .arrayItems xs level =>
      match xs with
      | [] => .ok (.items [])
      | x :: rest =>
        match encodeGo fuel tzMin (.value x level true) with
        | .err e => .err e
        | .ok (.value _ r) =>
          match encodeGo fuel tzMin (.arrayItems rest level) with
          | .err e => .err e
          | .ok (.items rs) => .ok (.items (r :: rs))
          | _ => .fuel
        | _ => .fuel
    | .array xs level =>
      match encodeGo fuel tzMin (.arrayItems xs level) with
      | .err e => .err e
      | .ok (.items items) =>
        let len := (items.map jsLen).sum + 2 * items.length
        if len = 0 then .ok (.text ['[', ']'])
        else if level = 1 ∧ 80 < len then
          .ok (.text ('[' :: '\n' :: (items.map (fun e => ' ' :: ' ' :: ' ' :: ' ' :: e ++ [',', '\n'])).flatten ++ [']']))
        else
          .ok (.text ('[' :: List.intercalate [',', ' '] items ++ [']']))
      | _ => .fuel
    | .rootEntries es i =>
      match es with
      | [] => .ok (.items [])
      | (key, value) :: rest =>
        match checkKey key with
        | .error e => .err e
        | .ok k =>
          match encodeGo fuel tzMin (.value value 0 true) with
          | .err e => .err e
          | .ok (.value vt v) =>
            let piece :=
              if vt = .MAP then
                let header := if i = 0 then '[' :: k ++ [']'] else '\n' :: '[' :: k ++ [']']
                if v.isEmpty then header ++ ['\n']
                else header ++ '\n' :: v ++ ['\n']
              else k ++ ' ' :: '=' :: ' ' :: v ++ ['\n']
            match encodeGo fuel tzMin (.rootEntries rest (i + 1)) with
            | .err e => .err e
            | .ok (.items ps) => .ok (.items (piece :: ps))
            | _ => .fuel
          | _ => .fuel
    | .l1Entries es =>
      match es with
      | [] => .ok (.items [])
      | (key, value) :: rest =>
        match checkKey key with
        | .error e => .err e
        | .ok k =>
          match encodeGo fuel tzMin (.value value 1 false) with
          | .err e => .err e
          | .ok (.value _ v) =>
            match encodeGo fuel tzMin (.l1Entries rest) with
            | .err e => .err e
            | .ok (.items ps) => .ok (.items ((k ++ ' ' :: '=' :: ' ' :: v ++ ['\n']) :: ps))
            | _ => .fuel
          | _ => .fuel
    | .inlineEntries es level =>
      match es with
      | [] => .ok (.entries [])
      | (key, value) :: rest =>
        match checkKey key with
        | .error e => .err e
        | .ok k =>
          match encodeGo fuel tzMin (.value value level true) with
          | .err e => .err e
          | .ok (.value _ v) =>
            match encodeGo fuel tzMin (.inlineEntries rest level) with
            | .err e => .err e
            | .ok (.entries ps) => .ok (.entries ((k, v) :: ps))
            | _ => .fuel
          | _ => .fuel
    | .mapTable es level =>
      if level = 0 then
        let grouped := es.filter (fun e => !e.2.isTable) ++ es.filter (fun e => e.2.isTable)
        match encodeGo fuel tzMin (.rootEntries grouped 0) with
        | .err e => .err e
        | .ok (.items ps) => .ok (.text ps.flatten.dropLast)
        | _ => .fuel
      else if level = 1 then
        match encodeGo fuel tzMin (.l1Entries es) with
        | .err e => .err e
        | .ok (.items ps) => .ok (.text ps.flatten.dropLast)
        | _ => .fuel
      else
        match encodeGo fuel tzMin (.inlineEntries es level) with
        | .err e => .err e
        | .ok (.entries items) =>
          let len := (items.map (fun p => jsLen p.1 + jsLen p.2 + 5)).sum
          if len = 0 then .ok (.text [lb, rb])
          else if level = 2 ∧ 80 < len then
            .ok (.text (lb :: '\n' ::
              (items.map (fun p => ' ' :: ' ' :: ' ' :: ' ' :: p.1 ++ ' ' :: '=' :: ' ' :: p.2 ++ [',', '\n'])).flatten
              ++ [rb]))
          else
            .ok (.text (lb :: ' ' ::
              List.intercalate [',', ' '] (items.map (fun p => p.1 ++ ' ' :: '=' :: ' ' :: p.2))
              ++ [' ', rb]))
        | _ => .fuel

/-- `encodeValue` of the source (wrapper over the engine). -/
def encodeValue (fuel : Nat) (tzMin : Int) (input : Val) (level : Nat)
    (levelUpIfNotMap : Bool) : Res EncErr (ValType × List Char) :=
  match encodeGo fuel tzMin (.value input level levelUpIfNotMap) with
  | .ok (.value vt r) => .ok (vt, r)
  | .err e => .err e
  | _ => .fuel

/-- `encodeArray` of the source (wrapper over the engine). -/
def encodeArray (fuel : Nat) (tzMin : Int) (xs : List Val) (level : Nat) :
    Res EncErr (List Char) :=
  match encodeGo fuel tzMin (.array xs level) with
  | .ok (.text r) => .ok r
  | .err e => .err e
  | _ => .fuel

/-- `encodeMap` of the source (wrapper over the engine). -/
def encodeMap (fuel : Nat) (tzMin : Int) (es : List (List Char × Val)) (level : Nat) :
    Res EncErr (List Char) :=
  match encodeGo fuel tzMin (.mapTable es level) with
  | .ok (.text r) => .ok r
  | .err e => .err e
  | _ => .fuel

mutual

/-- total size of a value; it bounds the length of every fueled encoder
call chain, and so serves as the canonical fuel of `encode`. -/
def sizeVal : Val → Nat
  | .arr xs => sizeList xs + 2
  | .table es => sizeEntries es + 2
  | _ => 1

/-- total size of a value list. -/
def sizeList : List Val → Nat
  | [] => 1
  | x :: r => sizeVal x + sizeList r + 1

/-- total size of an entry list. -/
def sizeEntries : List (List Char × Val) → Nat
  | [] => 1
  | (_, v) :: r => sizeVal v + sizeEntries r + 1

end

/-- `encode` of the source: render the document (a root table) at level 0.
The canonical fuel `sizeEntries es + 2` exceeds the length of any fueled
call chain over `es`. -/
def encode (tzMin : Int) (es : List (List Char × Val)) : Res EncErr (List Char) :=
  encodeMap (sizeEntries es + 2) tzMin es 0

/-! ## the decoder: tokenizer primitives -/

/-- the reserved delimiter set (`DELIMITERS` of the source). -/
def DELIMITERS : List Char := "=\n;,()[]".data ++ [lb, rb, '#']

/-- the single-quote character (kept out of literals for the scanner). -/
def qt1 : Char := Char.ofNat 39

/-- upper-case an ASCII letter (`toUpperCase` restricted to the ASCII
range; the keyword comparisons only succeed on ASCII anyway). -/
def upperCh (c : Char) : Char :=
  if 97 ≤ c.toNat ∧ c.toNat ≤ 122 then Char.ofNat (c.toNat - 32) else c

/-- ASCII upper-casing of a string. -/
def toUpperAscii (s : List Char) : List Char := s.map upperCh

/-- core loop of `matchUntil`: accumulate until an unescaped delimiter (a
backslash makes the following character literal and never a delimiter);
returns (accumulated, delimiter found or end, rest of the stream). -/
def matchUntilGo (delims : List Char) : List Char → List Char → Bool →
    List Char × Option Char × List Char
  | [], acc, _ => (acc.reverse, none, [])
  | c :: cs, acc, isEscaped =>
    if isEscaped then matchUntilGo delims cs (c :: acc) false
    else if c == '\\' then matchUntilGo delims cs acc true
    else if delims.contains c then (acc.reverse, some c, cs)
    else matchUntilGo delims cs (c :: acc) false

/-- `matchUntil` of the source.  On end of input without a delimiter and
`endOfInput = false` the error names the delimiter set when it is a
single character. -/
def matchUntil (cs : List Char) (delims : List Char) (endOfInput : Bool)
    (start : Option Char) : Except (List Char) (List Char × Option Char × List Char) :=
  let stream := match start with | some c => c :: cs | none => cs
  let r := matchUntilGo delims stream [] false
  match r.2.1 with
  | some _ => .ok r
  | none =>
    if endOfInput then .ok r
    else if delims.length = 1 then
      .error ("delimiter ".data ++ reprStr60 delims ++ " expected but end of input reached".data)
    else .error "delimiter expected but end of input reached".data

/-- the token classes of the tokenizer (first source iteration names). -/
inductive TokType where
  | KEY | VALUE | LIST_DIVIDER | LIST_DELIMITER | NEW_LINE | END_OF_INPUT | UNKNOWN
deriving DecidableEq

/-- the class name as it appears in the source. -/
def tokName : TokType → List Char
  | .KEY => "KEY".data
  | .VALUE => "VALUE".data
  | .LIST_DIVIDER => "LIST_DIVIDER".data
  | .LIST_DELIMITER => "LIST_DELIMITER".data
  | .NEW_LINE => "NEW_LINE".data
  | .END_OF_INPUT => "END_OF_INPUT".data
  | .UNKNOWN => "UNKNOWN".data

/-- `expected.replace(/_/g, " ").toLowerCase()` applied to a message. -/
def humanize (s : List Char) : List Char :=
  s.map (fun c => if c == '_' then ' ' else lowerCh c)

/-- `checkMatch` of the source: `none` when the produced class is
expected, otherwise the syntax error message listing the expected
classes (comma/"or"-joined, lower-cased) and the text reached (read from
the stream up to `#` or newline, trimmed, display-capped at 20). -/
def checkMatch (expected : List TokType) (cs : List Char) (character : Option Char)
    (typ : TokType) : Option (List Char) :=
  if expected.contains typ then none
  else
    let names := expected.map tokName
    let expStr :=
      if 1 < expected.length then
        List.intercalate ", ".data names.dropLast ++ " or ".data ++ (names.getLast?.getD [])
      else List.intercalate ",".data names
    let expStr := humanize expStr
    let typStr := humanize (tokName typ)
    let reached :=
      match matchUntil cs ['#', '\n'] true character with
      | .ok r => jsTrim r.1
      | .error _ => []
    let msg :=
      if typ = .UNKNOWN then reprStr reached 20 ++ " reached".data
      else if reached.isEmpty then typStr ++ " reached".data
      else typStr ++ ' ' :: reprStr reached 20 ++ " reached".data
    some (expStr ++ " expected but ".data ++ msg)

/-- key levels (`"FIRST_LEVEL"` at the document root, `"HIGHER_LEVEL"`
inside an inline table). -/
inductive KeyLevel where
  | FIRST_LEVEL | HIGHER_LEVEL
deriving DecidableEq

/-- a token's payload: a parsed value, a key, or nothing. -/
inductive TokPay where
  | val (v : Val) : TokPay
  | key (k : List Char) : TokPay
  | nothing : TokPay

/-- a produced token `[payload, end-character, class]` (the JS empty
string standing for "no end character" becomes `none`). -/
structure PTok where
  pay : TokPay
  endc : Option Char
  typ : TokType

/-- the end-character as the string JS would interpolate. -/
def endcStr : Option Char → List Char
  | some c => [c]
  | none => []

/-- `matchKey` of the source: read to the next delimiter; `[name]` keys
must be at the first level and close with `]`; a blank key is invalid. -/
def matchKey (cs : List Char) (start : Char) (level : KeyLevel) :
    Except (List Char) (PTok × List Char) :=
  match matchUntil cs DELIMITERS true none with
  | .error e => .error e
  | .ok (raw, endc, rest) =>
    if start == '[' then
      if level ≠ .FIRST_LEVEL then
        let key := start :: jsTrim raw ++ endcStr endc
        .error ("key ".data ++ reprStr60 key ++ " invalid (repr([...]) syntax only at first level)".data)
      else if endc ≠ some ']' then
        let key := start :: jsTrim raw ++ endcStr endc
        let reached :=
          match matchUntil rest ['#', '\n'] true endc with
          | .ok r => jsTrim r.1
          | .error _ => []
        .error ("key ".data ++ reprStr60 key ++ " invalid (".data ++ reprStr60 [']'] ++
          " expected but ".data ++ reprStr reached 20 ++ " reached".data)
      else if raw.isEmpty then
        .error ("key ".data ++ reprStr60 (start :: endcStr endc) ++ " invalid (blank)".data)
      else .ok (⟨.key raw, endc, .KEY⟩, rest)
    else
      let k := jsTrim (start :: raw)
      if k.isEmpty then
        .error ("key ".data ++ reprStr60 (endcStr endc) ++ " invalid (blank)".data)
      else .ok (⟨.key k, endc, .KEY⟩, rest)

/-- `matchString` of the source: read to the unescaped closing quote. -/
def matchString (cs : List Char) (delimiter : Char) :
    Except (List Char) (PTok × List Char) :=
  match matchUntil cs [delimiter] false none with
  | .error e => .error e
  | .ok (s, _, rest) => .ok (⟨.val (.str s), none, .VALUE⟩, rest)

/-- does the raw text contain a character of the class `[-+:/utc]`
(case-insensitive), which re-routes `matchNumber` to the date parser. -/
def isDateTriggerCh (c : Char) : Bool :=
  c == '-' || c == '+' || c == ':' || c == '/' ||
  lowerCh c == 'u' || lowerCh c == 't' || lowerCh c == 'c'

/-- `raw.search(/[-+:/utc]/i) > -1` of the source. -/
def hasDateTrigger (raw : List Char) : Bool := raw.any isDateTriggerCh

/-- one grouping-separator stripping pass of the source
(`raw.replace(/_(\d{3})/g, "$1")` and the same with a space): each
non-overlapping occurrence of the separator followed by exactly three
digits loses the separator. -/
def stripGroupSep (sep : Char) : List Char → List Char
  | [] => []
  | c :: a :: b :: d :: rest =>
    if c == sep && isDigitCh a && isDigitCh b && isDigitCh d then
      a :: b :: d :: stripGroupSep sep rest
    else c :: stripGroupSep sep (a :: b :: d :: rest)
  | c :: cs => c :: stripGroupSep sep cs

/-- `matchNumber` of the source: read the raw literal to a delimiter,
apply the sign from the start character, detect the date character class,
strip grouping separators, recognise the NaN/Infinity spellings, and
otherwise convert with `Number(...)`. -/
def matchNumber (tzMin : Int) (cs : List Char) (start : Char) :
    Except (List Char) (PTok × List Char) :=
  match matchUntil cs DELIMITERS true none with
  | .error e => .error e
  | .ok (raw0, endc, rest) =>
    let neg := start == '-'
    let raw := jsTrim ((if start == '-' ∨ start == '+' then [] else [start]) ++ raw0)
    if hasDateTrigger raw then
      match matchDate tzMin raw with
      | .error e => .error e
      | .ok d => .ok (⟨.val (.date d), endc, .VALUE⟩, rest)
    else
      let raw := stripGroupSep ' ' (stripGroupSep '_' raw)
      let up := toUpperAscii raw
      if up = "NA".data ∨ up = "NAN".data ∨ up = "N/A".data then
        .ok (⟨.val (.num .nan), endc, .VALUE⟩, rest)
      else if up = "INF".data ∨ up = "INFINITY".data then
        .ok (⟨.val (.num (.inf neg)), endc, .VALUE⟩, rest)
      else
        match jsStrToNumber raw with
        | none => .error ("number ".data ++ reprStr60 raw ++ " invalid".data)
        | some (.finite q) =>
          .ok (⟨.val (.num (.fin (if neg then q.mul (Q.ofInt (-1)) else q))), endc, .VALUE⟩, rest)
        | some (.infinite n0) =>
          .ok (⟨.val (.num (.inf (xor n0 neg))), endc, .VALUE⟩, rest)

/-- `matchKeyword` of the source: case-insensitive lookup of
`true` / `false` / `null` / `inf(inity)` / `na(n)` / `n/a`. -/
def matchKeyword (cs : List Char) (start : Char) :
    Except (List Char) (PTok × List Char) :=
  match matchUntil cs DELIMITERS true none with
  | .error e => .error e
  | .ok (raw0, endc, rest) =>
    let raw := jsTrim (start :: raw0)
    let up := toUpperAscii raw
    if up = "TRUE".data then .ok (⟨.val (.boolV true), endc, .VALUE⟩, rest)
    else if up = "FALSE".data then .ok (⟨.val (.boolV false), endc, .VALUE⟩, rest)
    else if up = "NULL".data then .ok (⟨.val .nullV, endc, .VALUE⟩, rest)
    else if up = "INF".data ∨ up = "INFINITY".data then
      .ok (⟨.val (.num (.inf false)), endc, .VALUE⟩, rest)
    else if up = "NA".data ∨ up = "NAN".data ∨ up = "N/A".data then
      .ok (⟨.val (.num .nan), endc, .VALUE⟩, rest)
    else .error ("keyword ".data ++ reprStr60 raw ++ " invalid".data)

/-- JavaScript `Map.prototype.set` on an ordered map: re-assignment
overwrites the existing slot in place (first position wins), a new key
is appended. -/
def mapSet (m : List (List Char × Val)) (k : List Char) (v : Val) :
    List (List Char × Val) :=
  if m.any (fun p => p.1 == k) then
    m.map (fun p => if p.1 == k then (p.1, v) else p)
  else m ++ [(k, v)]

/-- write an entry to the current target of the document-root loop: the
root map itself, or the table stored under the current section key. -/
def setInTarget (result : List (List Char × Val)) (sect : Option (List Char))
    (k : List Char) (v : Val) : List (List Char × Val) :=
  match sect with
  | none => mapSet result k v
  | some s =>
    result.map (fun p =>
      if p.1 == s then
        match p.2 with
        | .table tbl => (p.1, Val.table (mapSet tbl k v))
        | _ => p
      else p)

/-! ## the decoder: the grammar engine -/

/-- the pending call of the defunctionalised decoder: the mutually
recursive source functions `matchNext`, `matchArray`, `matchMap` and
`matchEntries` (each `while` loop becoming a tail call with its loop
state) turn into one fuel-structural function `parseGo`, so that the
kernel can evaluate it; the wrappers below restore the source names. -/
inductive PCall where
  | next (cs : List Char) (expected : List TokType) (entryKey : Option KeyLevel)
      (start : Option Char) (newLine : Bool) : PCall
  | array (cs : List Char) (opener : Char) : PCall
  | arrayLoop (cs : List Char) (close : Char) (acc : List Val)
      (start : Option Char) (expected : List TokType) : PCall
  | mapT (cs : List Char) : PCall
  | mapLoop (cs : List Char) (acc : List (List Char × Val)) (start : Option Char)
      (expected : List TokType) : PCall
  | entries (cs : List Char) : PCall
  | entriesLoop (cs : List Char) (result : List (List Char × Val))
      (sect : Option (List Char)) : PCall

/-- the result of one defunctionalised decoder call: a token with the
rest of the stream, or the finished document. -/
inductive POut where
  | tok (t : PTok) (rest : List Char) : POut
  | doc (es : List (List Char × Val)) (rest : List Char) : POut

/-- the decoder engine; each arm is the body of the corresponding source
function (see the wrappers below).  Fuel is decremented on every call;
the JS loops have no bound, and every theorem supplies enough fuel. -/
def parseGo : Nat → Int → PCall → Res (List Char) POut
  | 0, _, _ => .fuel
  | fuel + 1, tzMin, call =>
    match call with
    | .next cs expected entryKey start newLine =>
      let head : Option (Char × List Char) :=
        match start with
        | some c => some (c, cs)
        | none => match cs with | c :: rest => some (c, rest) | [] => none
      match head with
      | none =>
        match checkMatch expected [] none .END_OF_INPUT with
        | some m => .err m
        | none => .ok (.tok ⟨.nothing, none, .END_OF_INPUT⟩ [])
      | some (c, rest) =>
        if c == '\n' ∨ c == '#' then
          match checkMatch expected rest (some c) .NEW_LINE with
          | some m => .err m
          | none =>
            let after :=
              if c == '#' then
                match matchUntil rest ['\n'] true none with
                | .ok r => r.2.2
                | .error _ => []
              else rest
            if newLine then .ok (.tok ⟨.nothing, some '\n', .NEW_LINE⟩ after)
            else parseGo fuel tzMin (.next after expected entryKey none newLine)
        else if isJsSpace c then
          parseGo fuel tzMin (.next rest expected entryKey none newLine)
        else if c == ',' then
          match checkMatch expected rest (some c) .LIST_DIVIDER with
          | some m => .err m
          | none => .ok (.tok ⟨.nothing, some c, .LIST_DIVIDER⟩ rest)
        else if c == ']' ∨ c == ')' ∨ c == rb then
          match checkMatch expected rest (some c) .LIST_DELIMITER with
          | some m => .err m
          | none => .ok (.tok ⟨.nothing, some c, .LIST_DELIMITER⟩ rest)
        else
          match entryKey with
          | some level =>
            match checkMatch expected rest (some c) .KEY with
            | some m => .err m
            | none =>
              match matchKey rest c level with
              | .error e => .err e
              | .ok (t, r) => .ok (.tok t r)
          | none =>
            if c == '"' ∨ c == qt1 then
              match checkMatch expected rest (some c) .VALUE with
              | some m => .err m
              | none =>
                match matchString rest c with
                | .error e => .err e
                | .ok (t, r) => .ok (.tok t r)
            else if isDigitCh c ∨ c == '.' ∨ c == '+' ∨ c == '-' then
              match checkMatch expected rest (some c) .VALUE with
              | some m => .err m
              | none =>
                match matchNumber tzMin rest c with
                | .error e => .err e
                | .ok (t, r) => .ok (.tok t r)
            else if (97 ≤ (lowerCh c).toNat ∧ (lowerCh c).toNat ≤ 122) ∨ c == '_' then
              match checkMatch expected rest (some c) .VALUE with
              | some m => .err m
              | none =>
                match matchKeyword rest c with
                | .error e => .err e
                | .ok (t, r) => .ok (.tok t r)
            else if c == '[' ∨ c == '(' then
              match checkMatch expected rest (some c) .VALUE with
              | some m => .err m
              | none => parseGo fuel tzMin (.array rest c)
            else if c == lb then
              match checkMatch expected rest (some c) .VALUE with
              | some m => .err m
              | none => parseGo fuel tzMin (.mapT rest)
            else
              match checkMatch expected rest (some c) .UNKNOWN with
              | some m => .err m
              | none => parseGo fuel tzMin (.next rest expected entryKey (some c) newLine)
    | .array cs opener =>
      let close := if opener == '[' then ']' else ')'
      parseGo fuel tzMin (.arrayLoop cs close [] none [.VALUE, .LIST_DELIMITER, .NEW_LINE])
    | .arrayLoop cs close acc start expected =>
      match parseGo fuel tzMin (.next cs expected none start false) with
      | .err e => .err e
      | .fuel => .fuel
      | .ok (.tok t rest) =>
        if t.typ = .VALUE then
          match t.pay with
          | .val v =>
            parseGo fuel tzMin
              (.arrayLoop rest close (acc ++ [v]) t.endc [.LIST_DIVIDER, .LIST_DELIMITER, .NEW_LINE])
          | _ => .fuel
        else if t.typ = .LIST_DIVIDER then
          parseGo fuel tzMin (.arrayLoop rest close acc none [.VALUE, .LIST_DELIMITER, .NEW_LINE])
        else
          if t.endc = some close then .ok (.tok ⟨.val (.arr acc), none, .VALUE⟩ rest)
          else
            let reached :=
              match matchUntil rest ['#', '\n'] true t.endc with
              | .ok r => jsTrim r.1
              | .error _ => []
            .err ("end of array ".data ++ reprStr60 [close] ++ " expected but ".data ++
              reprStr reached 20 ++ " reached".data)
      | .ok _ => .fuel
    | .mapT cs =>
      parseGo fuel tzMin (.mapLoop cs [] none [.KEY, .LIST_DELIMITER, .NEW_LINE])
    | .mapLoop cs acc start expected =>
      match parseGo fuel tzMin (.next cs expected (some .HIGHER_LEVEL) start false) with
      | .err e => .err e
      | .fuel => .fuel
      | .ok (.tok t rest) =>
        if t.typ = .LIST_DIVIDER then
          parseGo fuel tzMin (.mapLoop rest acc none [.KEY, .LIST_DELIMITER, .NEW_LINE])
        else if t.typ = .LIST_DELIMITER then
          if t.endc = some rb then .ok (.tok ⟨.val (.table acc), none, .VALUE⟩ rest)
          else
            let reached :=
              match matchUntil rest ['#', '\n'] true t.endc with
              | .ok r => jsTrim r.1
              | .error _ => []
            .err ("end of map ".data ++ reprStr60 [rb] ++ " expected but ".data ++
              reprStr reached 20 ++ " reached".data)
        else if t.endc ≠ some '=' then
          let reached :=
            match matchUntil rest ['#', '\n'] true t.endc with
            | .ok r => jsTrim r.1
            | .error _ => []
          .err ("assignment character ".data ++ reprStr60 ['='] ++ " expected but ".data ++
            reprStr reached 20 ++ " reached".data)
        else
          match t.pay with
          | .key k =>
            match parseGo fuel tzMin (.next rest [.VALUE] none none false) with
            | .err e => .err e
            | .fuel => .fuel
            | .ok (.tok tv rest2) =>
              match tv.pay with
              | .val v =>
                parseGo fuel tzMin
                  (.mapLoop rest2 (mapSet acc k v) tv.endc [.LIST_DIVIDER, .LIST_DELIMITER, .NEW_LINE])
              | _ => .fuel
            | .ok _ => .fuel
          | _ => .fuel
      | .ok _ => .fuel
    | .entries cs => parseGo fuel tzMin (.entriesLoop cs [] none)
    | .entriesLoop cs result sect =>
      match parseGo fuel tzMin
          (.next cs [.KEY, .NEW_LINE, .END_OF_INPUT] (some .FIRST_LEVEL) none false) with
      | .err e => .err e
      | .fuel => .fuel
      | .ok (.tok t rest) =>
        if t.typ = .END_OF_INPUT then .ok (.doc result rest)
        else if t.endc = some ']' then
          match t.pay with
          | .key k =>
            parseGo fuel tzMin (.entriesLoop rest (mapSet result k (.table [])) (some k))
          | _ => .fuel
        else if t.endc ≠ some '=' then
          match t.pay with
          | .key k =>
            let reached :=
              match matchUntil rest ['#', '\n'] true t.endc with
              | .ok r => jsTrim r.1
              | .error _ => []
            .err ("assignment character ".data ++ reprStr60 ['='] ++ " expected but ".data ++
              reprStr reached 20 ++ " reached ".data ++ "at entry ".data ++ reprStr60 k)
          | _ => .fuel
        else
          match t.pay with
          | .key k =>
            match parseGo fuel tzMin (.next rest [.VALUE] none none false) with
            | .err e => .err (e ++ " at entry ".data ++ reprStr60 k)
            | .fuel => .fuel
            | .ok (.tok tv rest2) =>
              match tv.pay with
              | .val v =>
                if tv.endc = some '\n' then
                  parseGo fuel tzMin (.entriesLoop rest2 (setInTarget result sect k v) sect)
                else
                  match parseGo fuel tzMin
                      (.next rest2 [.NEW_LINE, .END_OF_INPUT] none tv.endc true) with
                  | .err e => .err (e ++ " at entry ".data ++ reprStr60 k)
                  | .fuel => .fuel
                  | .ok (.tok _ rest3) =>
                    parseGo fuel tzMin (.entriesLoop rest3 (setInTarget result sect k v) sect)
                  | .ok _ => .fuel
              | _ => .fuel
            | .ok _ => .fuel
          | _ => .fuel
      | .ok _ => .fuel

/-- `matchNext` of the source (wrapper over the engine). -/
def matchNext (fuel : Nat) (tzMin : Int) (cs : List Char) (expected : List TokType)
    (entryKey : Option KeyLevel) (start : Option Char) (newLine : Bool) :
    Res (List Char) (PTok × List Char) :=
  match parseGo fuel tzMin (.next cs expected entryKey start newLine) with
  | .ok (.tok t r) => .ok (t, r)
  | .err e => .err e
  | _ => .fuel

/-- `matchArray` of the source (wrapper over the engine). -/
def matchArray (fuel : Nat) (tzMin : Int) (cs : List Char) (opener : Char) :
    Res (List Char) (PTok × List Char) :=
  match parseGo fuel tzMin (.array cs opener) with
  | .ok (.tok t r) => .ok (t, r)
  | .err e => .err e
  | _ => .fuel

/-- `matchMap` of the source (wrapper over the engine). -/
def matchMap (fuel : Nat) (tzMin : Int) (cs : List Char) :
    Res (List Char) (PTok × List Char) :=
  match parseGo fuel tzMin (.mapT cs) with
  | .ok (.tok t r) => .ok (t, r)
  | .err e => .err e
  | _ => .fuel

/-- `matchEntries` of the source (wrapper over the engine). -/
def matchEntries (fuel : Nat) (tzMin : Int) (cs : List Char) :
    Res (List Char) (List (List Char × Val)) :=
  match parseGo fuel tzMin (.entries cs) with
  | .ok (.doc es _) => .ok es
  | .err e => .err e
  | _ => .fuel

/-- the canonical decode fuel: every call chain of the engine advances
through the input often enough that `8·length + 16` cannot run out. -/
def decodeFuel (cs : List Char) : Nat := 8 * cs.length + 16

/-- `decode` of the source on a text input (`generateFrom` of a string
yields exactly its code points, which is the list itself).  The
extended-map option only changes the surface API of the returned table
(attribute-style access), not its contents, and is not modelled. -/
def decode (tzMin : Int) (input : List Char) : Res (List Char) (List (List Char × Val)) :=
  matchEntries (decodeFuel input) tzMin input

/-! ## the character source adapter: chunks and incremental UTF-8 -/

/-- the state of the WHATWG UTF-8 decoder: accumulated code point, how
many continuation bytes are needed and seen, and the admissible range of
the next byte. -/
structure Utf8State where
  codePoint : Nat
  bytesNeeded : Nat
  bytesSeen : Nat
  lower : Nat
  upper : Nat
deriving DecidableEq

/-- the fresh decoder state. -/
def utf8Init : Utf8State := ⟨0, 0, 0, 0x80, 0xBF⟩

/-- one step of the decoder on a byte with no sequence in progress
(bitwise masking written with `%` on powers of two). -/
def utf8StepInit (b : Nat) : List Nat × Utf8State :=
  if b ≤ 0x7F then ([b], utf8Init)
  else if 0xC2 ≤ b ∧ b ≤ 0xDF then ([], ⟨b % 32, 1, 0, 0x80, 0xBF⟩)
  else if 0xE0 ≤ b ∧ b ≤ 0xEF then
    ([], ⟨b % 16, 2, 0, if b = 0xE0 then 0xA0 else 0x80, if b = 0xED then 0x9F else 0xBF⟩)
  else if 0xF0 ≤ b ∧ b ≤ 0xF4 then
    ([], ⟨b % 8, 3, 0, if b = 0xF0 then 0x90 else 0x80, if b = 0xF4 then 0x8F else 0xBF⟩)
  else ([0xFFFD], utf8Init)

/-- Modelled from the platform: one byte step of the WHATWG UTF-8
decoder in replacement (non-fatal) mode; a continuation byte outside the
admissible window emits U+FFFD and reprocesses the byte afresh. -/
def utf8Step (st : Utf8State) (b : Nat) : List Nat × Utf8State :=
  if st.bytesNeeded = 0 then utf8StepInit b
  else if st.lower ≤ b ∧ b ≤ st.upper then
    let cp := st.codePoint * 64 + b % 64
    if st.bytesSeen + 1 = st.bytesNeeded then ([cp], utf8Init)
    else ([], ⟨cp, st.bytesNeeded, st.bytesSeen + 1, 0x80, 0xBF⟩)
  else
    let r := utf8StepInit b
    (0xFFFD :: r.1, r.2)

/-- run the decoder over a byte chunk. -/
def utf8Chunk (st : Utf8State) : List Nat → List Nat × Utf8State
  | [] => ([], st)
  | b :: bs =>
    let r := utf8Step st b
    let r2 := utf8Chunk r.2 bs
    (r.1 ++ r2.1, r2.2)

/-- the final flush (`decoder.decode()`): an unfinished sequence becomes
one replacement character. -/
def utf8Flush (st : Utf8State) : List Nat :=
  if st.bytesNeeded = 0 then [] else [0xFFFD]

/-- BOM sniffing of `TextDecoder` (ignoreBOM is false by default): the
first code point ever produced is dropped when it is U+FEFF; the flag
flips at the first produced code point either way. -/
def applyBom (bomSeen : Bool) (cps : List Nat) : List Nat × Bool :=
  match bomSeen, cps with
  | false, [] => ([], false)
  | false, c :: rest => (if c = 0xFEFF then rest else c :: rest, true)
  | true, cps => (cps, true)

/-- code point to character (the decoder only produces scalar values). -/
def cpToChar (n : Nat) : Char := Char.ofNat n

/-- one chunk of a chunked input: text, or raw bytes. -/
inductive Chunk where
  | text (s : List Char) : Chunk
  | bytes (bs : List Nat) : Chunk

/-- the state of the `decoder` variable of `generateFromChunks`:
`null` before any decision, `false` for "chunks are text" — never
reached, because the source's line `decoder === false;` is a comparison
expression, not an assignment — or a live `TextDecoder`. -/
inductive DecVar where
  | nullV : DecVar
  | falseV : DecVar
  | dec (st : Utf8State) (bomSeen : Bool) : DecVar

/-- `generateFromChunks` of the source, faithfully including the
`decoder === false;` no-op: when the first chunk is a string the
variable stays `null`, so the text-or-bytes decision is re-evaluated at
every later chunk.  `none` models a platform `TypeError` (decoding a
string chunk with a live `TextDecoder`, or iterating a byte chunk as
characters), which no modelled claim reaches. -/
def generateFromChunks : List Chunk → DecVar → Option (List Char)
  | [], dv =>
    match dv with
    | .dec st bom => some (((applyBom bom (utf8Flush st)).1).map cpToChar)
    | _ => some []
  | ch :: rest, dv =>
    match dv, ch with
    | .nullV, .text s =>
      (generateFromChunks rest .nullV).map (fun tail => s ++ tail)
    | .nullV, .bytes bs =>
      let r := utf8Chunk utf8Init bs
      let b := applyBom false r.1
      (generateFromChunks rest (.dec r.2 b.2)).map (fun tail => b.1.map cpToChar ++ tail)
    | .dec st bom, .bytes bs =>
      let r := utf8Chunk st bs
      let b := applyBom bom r.1
      (generateFromChunks rest (.dec r.2 b.2)).map (fun tail => b.1.map cpToChar ++ tail)
    | .dec _ _, .text _ => none
    | .falseV, .text s =>
      (generateFromChunks rest .falseV).map (fun tail => s ++ tail)
    | .falseV, .bytes _ => none

/-- the character sequence a chunked input yields. -/
def chunkChars (chunks : List Chunk) : Option (List Char) :=
  generateFromChunks chunks .nullV

/-- a scalar stored directly in an array or table slot. -/
inductive SVal where
  | str (s : List Char) : SVal
  | num (n : JsNum) : SVal
  | date (d : JsDate) : SVal
  | boolV (b : Bool) : SVal
  | nullV : SVal
  | undef : SVal
deriving DecidableEq

/-- a slot of the heap model: an immediate scalar, or a reference to an
array/table object; references model JavaScript object identity, which
the tree model cannot express. -/
inductive HVal where
  | leaf (v : SVal) : HVal
  | ref (n : Nat) : HVal
deriving DecidableEq

/-- an array or table object. -/
inductive HNode where
  | arr (xs : List HVal) : HNode
  | table (es : List (List Char × HVal)) : HNode

/-- the heap: node ids are list indices. -/
abbrev Heap := List HNode

/-- render a scalar slot (the scalar arms of `encodeValue`). -/
def encodeScalar (tzMin : Int) : SVal → ValType × List Char
  | .str s => (.STRING, encodeString s)
  | .num n => (.NUMBER, encodeNumber n)
  | .date d => (.DATE, encodeDate tzMin d)
  | .undef => (.KEYWORD, "NULL".data)
  | .nullV => (.KEYWORD, "NULL".data)
  | .boolV b => (.KEYWORD, if b then "TRUE".data else "FALSE".data)

/-- `getValueType(entry[1]) === "MAP"` over the heap. -/
def hIsTable (heap : Heap) : HVal → Bool
  | .leaf _ => false
  | .ref n =>
    match heap.get? n with
    | some (.table _) => true
    | _ => false

/-- the pending call of the defunctionalised heap encoder; `inProg` is
the identity-keyed in-progress `WeakSet` (node ids).  Each array/table
arm checks membership on entry and recurses with itself added, which is
the functional image of add-then-delete. -/
inductive HCall where
  | value (inProg : List Nat) (hv : HVal) (level : Nat) (levelUpIfNotMap : Bool) : HCall
  | array (inProg : List Nat) (n : Nat) (xs : List HVal) (level : Nat) : HCall
  | arrayItems (inProg : List Nat) (xs : List HVal) (level : Nat) : HCall
  | rootEntries (inProg : List Nat) (es : List (List Char × HVal)) (i : Nat) : HCall
  | l1Entries (inProg : List Nat) (es : List (List Char × HVal)) : HCall
  | inlineEntries (inProg : List Nat) (es : List (List Char × HVal)) (level : Nat) : HCall
  | mapTable (inProg : List Nat) (n : Nat) (es : List (List Char × HVal)) (level : Nat) : HCall

/-- the result of one heap-encoder call. -/
inductive HOut where
  | value (vt : ValType) (text : List Char) : HOut
  | items (rs : List (List Char)) : HOut
  | text (t : List Char) : HOut
  | entries (ps : List (List Char × List Char)) : HOut
deriving DecidableEq

/-- the heap-encoder engine, the same code as `encodeGo` with the
in-progress set kept (it is identity-based, so only the heap model can
exercise it).  A dangling reference yields `.fuel` (the closedness
hypothesis of every theorem rules it out). -/
def hEncodeGo (heap : Heap) : Nat → Int → HCall → Res EncErr HOut
  | 0, _, _ => .fuel
  | fuel + 1, tzMin, call =>
    match call with
    | .value inProg hv level levelUpIfNotMap =>
      match hv with
      | .leaf sv =>
        let r := encodeScalar tzMin sv
        .ok (.value r.1 r.2)
      | .ref n =>
        match heap.get? n with
        | none => .fuel
        | some (.arr xs) =>
          match hEncodeGo heap fuel tzMin
              (.array inProg n xs (if levelUpIfNotMap then level + 1 else level)) with
          | .ok (.text r) => .ok (.value .ARRAY r)
          | .err e => .err e
          | _ => .fuel
        | some (.table es) =>
          match hEncodeGo heap fuel tzMin (.mapTable inProg n es (level + 1)) with
          | .ok (.text r) => .ok (.value .MAP r)
          | .err e => .err e
          | _ => .fuel
    | .array inProg n xs level =>
      if inProg.contains n then .err .circular
      else
        match hEncodeGo heap fuel tzMin (.arrayItems (n :: inProg) xs level) with
        | .err e => .err e
        | .ok (.items items) =>
          let len := (items.map jsLen).sum + 2 * items.length
          if len = 0 then .ok (.text ['[', ']'])
          else if level = 1 ∧ 80 < len then
            .ok (.text ('[' :: '\n' :: (items.map (fun e => ' ' :: ' ' :: ' ' :: ' ' :: e ++ [',', '\n'])).flatten ++ [']']))
          else
            .ok (.text ('[' :: List.intercalate [',', ' '] items ++ [']']))
        | _ => .fuel
    | .arrayItems inProg xs level =>
      match xs with
      | [] => .ok (.items [])
      | x :: rest =>
        match hEncodeGo heap fuel tzMin (.value inProg x level true) with
        | .err e => .err e
        | .ok (.value _ r) =>
          match hEncodeGo heap fuel tzMin (.arrayItems inProg rest level) with
          | .err e => .err e
          | .ok (.items rs) => .ok (.items (r :: rs))
          | _ => .fuel
        | _ => .fuel
    | .rootEntries inProg es i =>
      match es with
      | [] => .ok (.items [])
      | (key, value) :: rest =>
        match checkKey key with
        | .error e => .err e
        | .ok k =>
          match hEncodeGo heap fuel tzMin (.value inProg value 0 true) with
          | .err e => .err e
          | .ok (.value vt v) =>
            let piece :=
              if vt = .MAP then
                let header := if i = 0 then '[' :: k ++ [']'] else '\n' :: '[' :: k ++ [']']
                if v.isEmpty then header ++ ['\n']
                else header ++ '\n' :: v ++ ['\n']
              else k ++ ' ' :: '=' :: ' ' :: v ++ ['\n']
            match hEncodeGo heap fuel tzMin (.rootEntries inProg rest (i + 1)) with
            | .err e => .err e
            | .ok (.items ps) => .ok (.items (piece :: ps))
            | _ => .fuel
          | _ => .fuel
    | .l1Entries inProg es =>
      match es with
      | [] => .ok (.items [])
      | (key, value) :: rest =>
        match checkKey key with
        | .error e => .err e
        | .ok k =>
          match hEncodeGo heap fuel tzMin (.value inProg value 1 false) with
          | .err e => .err e
          | .ok (.value _ v) =>
            match hEncodeGo heap fuel tzMin (.l1Entries inProg rest) with
            | .err e => .err e
            | .ok (.items ps) => .ok (.items ((k ++ ' ' :: '=' :: ' ' :: v ++ ['\n']) :: ps))
            | _ => .fuel
          | _ => .fuel
    | .inlineEntries inProg es level =>
      match es with
      | [] => .ok (.entries [])
      | (key, value) :: rest =>
        match checkKey key with
        | .error e => .err e
        | .ok k =>
          match hEncodeGo heap fuel tzMin (.value inProg value level true) with
          | .err e => .err e
          | .ok (.value _ v) =>
            match hEncodeGo heap fuel tzMin (.inlineEntries inProg rest level) with
            | .err e => .err e
            | .ok (.entries ps) => .ok (.entries ((k, v) :: ps))
            | _ => .fuel
          | _ => .fuel
    | .mapTable inProg n es level =>
      if inProg.contains n then .err .circular
      else
        let inProg := n :: inProg
        if level = 0 then
          let grouped := es.filter (fun e => !hIsTable heap e.2) ++ es.filter (fun e => hIsTable heap e.2)
          match hEncodeGo heap fuel tzMin (.rootEntries inProg grouped 0) with
          | .err e => .err e
          | .ok (.items ps) => .ok (.text ps.flatten.dropLast)
          | _ => .fuel
        else if level = 1 then
          match hEncodeGo heap fuel tzMin (.l1Entries inProg es) with
          | .err e => .err e
          | .ok (.items ps) => .ok (.text ps.flatten.dropLast)
          | _ => .fuel
        else
          match hEncodeGo heap fuel tzMin (.inlineEntries inProg es level) with
          | .err e => .err e
          | .ok (.entries items) =>
            let len := (items.map (fun p => jsLen p.1 + jsLen p.2 + 5)).sum
            if len = 0 then .ok (.text [lb, rb])
            else if level = 2 ∧ 80 < len then
              .ok (.text (lb :: '\n' ::
                (items.map (fun p => ' ' :: ' ' :: ' ' :: ' ' :: p.1 ++ ' ' :: '=' :: ' ' :: p.2 ++ [',', '\n'])).flatten
                ++ [rb]))
            else
              .ok (.text (lb :: ' ' ::
                List.intercalate [',', ' '] (items.map (fun p => p.1 ++ ' ' :: '=' :: ' ' :: p.2))
                ++ [' ', rb]))
          | _ => .fuel

/-- `encode` over the heap model: render the root table object `root`
at level 0 with an empty in-progress set. -/
def hEncode (fuel : Nat) (tzMin : Int) (heap : Heap) (root : Nat) :
    Res EncErr (List Char) :=
  match heap.get? root with
  | some (.table es) =>
    match hEncodeGo heap fuel tzMin (.mapTable [] root es 0) with
    | .ok (.text r) => .ok r
    | .err e => .err e
    | _ => .fuel
  | _ => .fuel

/-! # Claim theorems -/

/-- C10: at encode time, an entry whose value is the JavaScript
`undefined` value is rendered identically to a null-valued entry, as the
uppercase keyword `NULL`, both as a bare value and inside a document;
encoding never fails on an undefined value. -/
theorem undefined_encodes_as_null (fuel : Nat) (tzMin : Int) (level : Nat) (up : Bool) :
    encodeValue (fuel + 1) tzMin .undef level up = .ok (.KEYWORD, "NULL".data) ∧
    encodeValue (fuel + 1) tzMin .undef level up = encodeValue (fuel + 1) tzMin .nullV level up ∧
    encodeMap 10 tzMin [("k".data, .undef)] 0 = .ok "k = NULL".data ∧
    encodeMap 10 tzMin [("k".data, .undef)] 0 = encodeMap 10 tzMin [("k".data, .nullV)] 0 :=
  ⟨rfl, rfl, rfl, rfl⟩

/-- C3 (code bug): the source line `decoder === false;` is a comparison
expression, not an assignment, so after a text first chunk the variable
stays `null` and the text-or-bytes decision is re-evaluated at the next
chunk: the byte chunks `C3`/`A9` after the text chunk `"a"` are UTF-8
decoded (even reassembled across the chunk boundary) to `é` instead of
being consumed in the text mode the first chunk chose.  Text-only chunk
sequences still concatenate. -/
theorem chunk_mode_reevaluated_after_text_chunk :
    chunkChars [.text "a".data, .bytes [0xC3], .bytes [0xA9]] = some "aé".data ∧
    chunkChars [.text "a".data, .text "b".data] = some "ab".data :=
  ⟨rfl, rfl⟩

/-- C4 (counterexample): a level-2 table whose single-line rendering is
exactly 81 characters stays inline (no newline in the output), while the
claim requires it to switch to the multi-line form; and a level-3 table
far beyond the threshold also stays inline, while the claim requires the
switch at every level ≥ 2. -/
theorem inline_table_81_chars_stays_inline :
    encodeMap 10 0 [("k".data, .str (List.replicate 71 'a'))] 2 =
      .ok (lb :: ' ' :: 'k' :: ' ' :: '=' :: ' ' :: '"' ::
        (List.replicate 71 'a' ++ '"' :: [' ', rb])) ∧
    jsLen (lb :: ' ' :: 'k' :: ' ' :: '=' :: ' ' :: '"' ::
        (List.replicate 71 'a' ++ '"' :: [' ', rb])) = 81 ∧
    (lb :: ' ' :: 'k' :: ' ' :: '=' :: ' ' :: '"' ::
        (List.replicate 71 'a' ++ '"' :: [' ', rb])).contains '\n' = false ∧
    encodeMap 10 0 [("k".data, .str (List.replicate 120 'a'))] 3 =
      .ok (lb :: ' ' :: 'k' :: ' ' :: '=' :: ' ' :: '"' ::
        (List.replicate 120 'a' ++ '"' :: [' ', rb])) := by
  refine ⟨?_, ?_, ?_, ?_⟩ <;> decide

/-! ## helper lemmas: lengths and joining -/

theorem jsLen_nil : jsLen [] = 0 := rfl

theorem jsLen_cons (c : Char) (s : List Char) : jsLen (c :: s) = jsLenChar c + jsLen s := by
  simp [jsLen]

theorem jsLen_append (a b : List Char) : jsLen (a ++ b) = jsLen a + jsLen b := by
  simp [jsLen]

theorem intercalate_single (sep : List Char) (p : List Char) :
    List.intercalate sep [p] = p := by
  simp [List.intercalate, List.intersperse]

theorem intercalate_cons_cons (sep : List Char) (p q : List Char) (rest : List (List Char)) :
    List.intercalate sep (p :: q :: rest) = p ++ sep ++ List.intercalate sep (q :: rest) := by
  simp [List.intercalate, List.intersperse]

theorem jsLen_intercalate_commaspace (parts : List (List Char)) (h : parts ≠ []) :
    jsLen (List.intercalate [',', ' '] parts) =
      (parts.map jsLen).sum + 2 * (parts.length - 1) := by
  induction parts with
  | nil => exact absurd rfl h
  | cons p rest ih =>
    match rest with
    | [] => simp [intercalate_single, jsLen]
    | q :: rs =>
      rw [intercalate_cons_cons]
      rw [jsLen_append, jsLen_append, ih (by simp)]
      simp [jsLen, jsLenChar]
      omega

/-- the claim-side single-line rendering of an inline table
(`{ k = v, k2 = v2 }`), built from the already-rendered entries. -/
def inlineForm (items : List (List Char × List Char)) : List Char :=
  lb :: ' ' ::
    List.intercalate [',', ' '] (items.map (fun p => p.1 ++ ' ' :: '=' :: ' ' :: p.2)) ++
    [' ', rb]

/-- the claim-side multi-line rendering of an inline table (one entry
per line, trailing commas, 4-space indentation). -/
def multilineForm (items : List (List Char × List Char)) : List Char :=
  lb :: '\n' ::
    (items.map (fun p => ' ' :: ' ' :: ' ' :: ' ' :: p.1 ++ ' ' :: '=' :: ' ' :: p.2 ++ [',', '\n'])).flatten
    ++ [rb]

theorem jsLen_inlineForm (items : List (List Char × List Char)) (h : items ≠ []) :
    jsLen (inlineForm items) =
      (items.map (fun p => jsLen p.1 + jsLen p.2 + 5)).sum + 2 := by
  unfold inlineForm
  have hne : items.map (fun p => p.1 ++ ' ' :: '=' :: ' ' :: p.2) ≠ [] := by
    simpa using h
  simp only [jsLen_cons, jsLen_append]
  rw [jsLen_intercalate_commaspace _ hne]
  have hmap : ((items.map (fun p => p.1 ++ ' ' :: '=' :: ' ' :: p.2)).map jsLen).sum =
      (items.map (fun p => jsLen p.1 + jsLen p.2 + 3)).sum := by
    rw [List.map_map]
    congr 1
    apply List.map_congr_left
    intro p _
    simp [jsLen_append, jsLen_cons, jsLen, jsLenChar]
    omega
  rw [hmap]
  have h5 : (items.map (fun p => jsLen p.1 + jsLen p.2 + 5)).sum =
      (items.map (fun p => jsLen p.1 + jsLen p.2 + 3)).sum + 2 * items.length := by
    induction items with
    | nil => simp
    | cons a rest ih => simp [ih]; omega
  have hlen : (items.map (fun p => p.1 ++ ' ' :: '=' :: ' ' :: p.2)).length = items.length := by
    simp
  rw [h5, hlen]
  have h1 : 0 < items.length := List.length_pos.mpr h
  have hlb : jsLenChar lb = 1 := by decide
  have hrb : jsLenChar rb = 1 := by decide
  have hsp : jsLenChar ' ' = 1 := by decide
  rw [hlb, hrb, hsp, jsLen_nil]
  omega

/-- C4 (amended): at nesting level exactly 2, when rendering of the
entries succeeds, `encodeMap` uses the inline single-line form
`{ k = v, k2 = v2 }` when that rendering is at most 82 characters and
switches to the one-entry-per-line form with trailing commas and
4-space indentation when it is 83 characters or more (the code's length
metric undercounts the rendered single-line form by exactly 2, so the
83/82 boundary replaces the claimed 81/80); at every level ≥ 3 the
inline form is used regardless of length; an empty table renders as
bare braces at any level ≥ 2. -/
theorem sum_entry_lengths (items : List (List Char × List Char)) :
    (items.map (fun p => jsLen p.1 + jsLen p.2 + 5)).sum =
      (items.map (fun i => jsLen i.1)).sum + (items.map (fun i => jsLen i.2)).sum +
        items.length * 5 := by
  induction items with
  | nil => simp
  | cons a r ih => simp [ih]; omega

theorem inline_table_threshold (fuel : Nat) (tzMin : Int)
    (es : List (List Char × Val)) (level : Nat) (items : List (List Char × List Char))
    (hlevel : 2 ≤ level)
    (hok : encodeGo fuel tzMin (.inlineEntries es level) = .ok (.entries items)) :
    (items = [] → encodeMap (fuel + 1) tzMin es level = .ok [lb, rb]) ∧
    (items ≠ [] → level = 2 → 83 ≤ jsLen (inlineForm items) →
      encodeMap (fuel + 1) tzMin es level = .ok (multilineForm items)) ∧
    (items ≠ [] → jsLen (inlineForm items) ≤ 82 →
      encodeMap (fuel + 1) tzMin es level = .ok (inlineForm items)) ∧
    (items ≠ [] → 3 ≤ level →
      encodeMap (fuel + 1) tzMin es level = .ok (inlineForm items)) := by
  have h0 : ¬ level = 0 := by omega
  have h1 : ¬ level = 1 := by omega
  refine ⟨?_, ?_, ?_, ?_⟩
  · intro hempty
    subst hempty
    simp [encodeMap, encodeGo, h0, h1, hok]
  · intro hne h2 hlen
    have hL := jsLen_inlineForm items hne
    rw [sum_entry_lengths] at hL
    subst h2
    have hbig : 80 < (items.map (fun i => jsLen i.1)).sum + (items.map (fun i => jsLen i.2)).sum +
        items.length * 5 := by omega
    simp [encodeMap, encodeGo, hok, hne, hbig, multilineForm]
  · intro hne hlen
    have hL := jsLen_inlineForm items hne
    rw [sum_entry_lengths] at hL
    have hsmall : ¬ (80 < (items.map (fun i => jsLen i.1)).sum + (items.map (fun i => jsLen i.2)).sum +
        items.length * 5) := by omega
    by_cases h2 : level = 2
    · subst h2
      simp [encodeMap, encodeGo, hok, hne, hsmall, inlineForm]
    · simp [encodeMap, encodeGo, h0, h1, h2, hok, hne, hsmall, inlineForm]
  · intro hne h3
    have h2 : ¬ level = 2 := by omega
    simp [encodeMap, encodeGo, h0, h1, h2, hok, hne, inlineForm]

set_option maxRecDepth 20000 in
/-- witness for `inline_table_threshold`: the 81-character table of the
counterexample renders inline (it is below the corrected 83 threshold). -/
theorem inline_table_threshold_witness :
    encodeGo 9 0 (.inlineEntries [("k".data, .str (List.replicate 71 'a'))] 2) =
      .ok (.entries [("k".data, '"' :: (List.replicate 71 'a' ++ ['"']))]) ∧
    encodeMap 10 0 [("k".data, .str (List.replicate 71 'a'))] 2 =
      .ok (inlineForm [("k".data, '"' :: (List.replicate 71 'a' ++ ['"']))]) := by
  constructor
  · decide
  · exact (inline_table_threshold 9 0 [("k".data, .str (List.replicate 71 'a'))] 2
      [("k".data, '"' :: (List.replicate 71 'a' ++ ['"']))] (by omega) (by decide)).2.2.1
      (by simp) (by decide)

/-- C6 (counterexample): a root document with one scalar entry followed
by one section renders with a blank line before the *first* section's
header (the section's index in the grouped entry list is 1, not 0),
while the claim requires no blank line before the first section. -/
theorem blank_line_before_first_section :
    encodeMap 10 0 [("x".data, .boolV true), ("s".data, .table [])] 0 =
      .ok "x = TRUE\n\n[s]".data ∧
    "x = TRUE\n\n[s]".data ≠ "x = TRUE\n[s]".data := by
  exact ⟨by rfl, by decide⟩

/-- a rendered root scalar/array line: `key = value` and a newline. -/
def ScalarPiece (k : List Char) (p : List Char) : Prop :=
  ∃ body, p = jsTrim k ++ ' ' :: '=' :: ' ' :: body ++ ['\n']

/-- a rendered root section: optionally a blank line, the `[key]` header
line, and the section body; `first` is true exactly when no blank line
precedes the header. -/
def SectionPiece (first : Bool) (k : List Char) (p : List Char) : Prop :=
  ∃ body, p = (if first then [] else ['\n']) ++ '[' :: jsTrim k ++ ']' :: '\n' :: body

/-- the per-entry shape of the root renderer's output: the i-th rendered
piece is a scalar line for a non-table entry and a section block for a
table entry, with a blank line before every section except one rendered
at overall index 0. -/
def PiecesOk : List (List Char × Val) → Nat → List (List Char) → Prop
  | [], _, ps => ps = []
  | (k, v) :: rest, i, ps =>
    ∃ p ps', ps = p :: ps' ∧
      (if v.isTable then SectionPiece (i = 0) k p else ScalarPiece k p) ∧
      PiecesOk rest (i + 1) ps'

theorem checkKey_ok_eq {k k' : List Char} (h : checkKey k = .ok k') : k' = jsTrim k := by
  simp only [checkKey] at h
  split at h
  · exact absurd h (by simp)
  · simpa using h.symm

theorem encodeGo_value_tag {fuel : Nat} {tzMin : Int} {v : Val} {level : Nat} {up : Bool}
    {vt : ValType} {t : List Char}
    (h : encodeGo fuel tzMin (.value v level up) = .ok (.value vt t)) :
    (vt = .MAP) = (v.isTable = true) := by
  cases fuel with
  | zero => simp [encodeGo] at h
  | succ f =>
    cases v with
    | str s => simp [encodeGo] at h; simp [← h.1, Val.isTable]
    | num n => simp [encodeGo] at h; simp [← h.1, Val.isTable]
    | date d => simp [encodeGo] at h; simp [← h.1, Val.isTable]
    | boolV b => simp [encodeGo] at h; simp [← h.1, Val.isTable]
    | nullV => simp [encodeGo] at h; simp [← h.1, Val.isTable]
    | undef => simp [encodeGo] at h; simp [← h.1, Val.isTable]
    | arr xs =>
      simp only [encodeGo] at h
      split at h <;> simp at h
      obtain ⟨h1, h2⟩ := h
      subst h1
      simp [Val.isTable]
    | table es =>
      simp only [encodeGo] at h
      split at h <;> simp at h
      obtain ⟨h1, h2⟩ := h
      subst h1
      simp [Val.isTable]

theorem rootEntries_pieces (tzMin : Int) : ∀ (entries : List (List Char × Val))
    (i0 fuel : Nat) (ps : List (List Char)),
    encodeGo fuel tzMin (.rootEntries entries i0) = .ok (.items ps) →
    PiecesOk entries i0 ps := by
  intro entries
  induction entries with
  | nil =>
    intro i0 fuel ps h
    cases fuel with
    | zero => simp [encodeGo] at h
    | succ f => simp [encodeGo] at h; simp [PiecesOk, h.symm]
  | cons e rest ih =>
    intro i0 fuel ps h
    obtain ⟨k, v⟩ := e
    cases fuel with
    | zero => simp [encodeGo] at h
    | succ f =>
      simp only [encodeGo] at h
      split at h
      · exact absurd h (by simp)
      · rename_i k' hkey
        split at h
        · exact absurd h (by simp)
        · rename_i vt vtext hval
          split at h
          · exact absurd h (by simp)
          · rename_i ps' hrest
            simp only [Res.ok.injEq, EncOut.items.injEq] at h
            subst h
            have hk := checkKey_ok_eq hkey
            subst hk
            simp only [PiecesOk]
            refine ⟨_, ps', rfl, ?_, ih _ _ _ hrest⟩
            have htag := encodeGo_value_tag hval
            by_cases htab : v.isTable = true
            · have hm : vt = ValType.MAP := by rw [htag]; exact htab
              rw [if_pos htab, if_pos hm]
              unfold SectionPiece
              by_cases hi : i0 = 0
              · by_cases hempty : vtext.isEmpty
                · exact ⟨[], by simp [hi, hempty]⟩
                · exact ⟨vtext ++ ['\n'], by simp [hi, hempty]⟩
              · by_cases hempty : vtext.isEmpty
                · exact ⟨[], by simp [hi, hempty]⟩
                · exact ⟨vtext ++ ['\n'], by simp [hi, hempty]⟩
            · have hm : ¬ vt = ValType.MAP := by rw [htag]; exact htab
              rw [if_neg htab, if_neg hm]
              exact ⟨vtext, by simp⟩
          · exact absurd h (by simp)
        · exact absurd h (by simp)

/-- C6 (amended): at the document root the encoder renders all
scalar/array entries before all table-valued (section) entries
regardless of insertion order — its output on `es` is its output on the
grouped reordering of `es` — and in the grouped order every rendered
piece is a bare `key = value` line for a scalar/array entry and a
section block for a table entry, where a blank line precedes the
`[key]` header of every section except one rendered at overall index 0;
in particular the first section is preceded by a blank line whenever
any scalar entry exists.  (The original claim's "no blank line precedes
the first section's header" holds only when there are no scalar
entries.) -/
theorem root_grouping_and_blank_lines (fuel : Nat) (tzMin : Int)
    (es : List (List Char × Val)) :
    (encodeMap fuel tzMin es 0 =
      encodeMap fuel tzMin
        (es.filter (fun e => !e.2.isTable) ++ es.filter (fun e => e.2.isTable)) 0) ∧
    (∀ ps, encodeGo fuel tzMin
        (.rootEntries (es.filter (fun e => !e.2.isTable) ++ es.filter (fun e => e.2.isTable)) 0) =
        .ok (.items ps) →
      encodeMap (fuel + 1) tzMin es 0 = .ok ps.flatten.dropLast ∧
      PiecesOk (es.filter (fun e => !e.2.isTable) ++ es.filter (fun e => e.2.isTable)) 0 ps) := by
  constructor
  · cases fuel with
    | zero => rfl
    | succ f =>
      unfold encodeMap encodeGo
      have hsplit :
          ((es.filter (fun e => !e.2.isTable) ++ es.filter (fun e => e.2.isTable)).filter
              (fun e => !e.2.isTable) ++
            (es.filter (fun e => !e.2.isTable) ++ es.filter (fun e => e.2.isTable)).filter
              (fun e => e.2.isTable)) =
          es.filter (fun e => !e.2.isTable) ++ es.filter (fun e => e.2.isTable) := by
        simp [List.filter_append, List.filter_filter]
      simp only [hsplit, if_pos]
  · intro ps h
    constructor
    · unfold encodeMap encodeGo
      simp [h]
    · exact rootEntries_pieces tzMin _ 0 fuel ps h

/-- witness for `root_grouping_and_blank_lines` at the counterexample
document: the rendered pieces are the scalar line and the blank-prefixed
section header. -/
theorem root_grouping_witness :
    encodeGo 9 0 (.rootEntries ([("x".data, Val.boolV true), ("s".data, Val.table [])].filter
        (fun e => !e.2.isTable) ++
      [("x".data, Val.boolV true), ("s".data, Val.table [])].filter (fun e => e.2.isTable)) 0) =
      .ok (.items ["x = TRUE\n".data, "\n[s]\n".data]) ∧
    encodeMap 10 0 [("x".data, Val.boolV true), ("s".data, Val.table [])] 0 =
      .ok (["x = TRUE\n".data, "\n[s]\n".data].flatten.dropLast) ∧
    PiecesOk ([("x".data, Val.boolV true), ("s".data, Val.table [])].filter
        (fun e => !e.2.isTable) ++
      [("x".data, Val.boolV true), ("s".data, Val.table [])].filter (fun e => e.2.isTable)) 0
      ["x = TRUE\n".data, "\n[s]\n".data] := by
  have h := (root_grouping_and_blank_lines 9 0
    [("x".data, Val.boolV true), ("s".data, Val.table [])]).2
    ["x = TRUE\n".data, "\n[s]\n".data] (by rfl)
  exact ⟨by rfl, h.1, h.2⟩

theorem lookup_mapSet (m : List (List Char × Val)) (k : List Char) (v : Val) :
    List.lookup k (mapSet m k v) = some v := by
  unfold mapSet
  by_cases hany : m.any (fun p => p.1 == k) = true
  · rw [if_pos hany]
    induction m with
    | nil => simp at hany
    | cons p rest ih =>
      simp only [List.any_cons, Bool.or_eq_true] at hany
      simp only [List.map_cons]
      by_cases hp : (p.1 == k) = true
      · have hpe : p.1 = k := by simpa using hp
        rw [if_pos hp]
        simp [List.lookup, hpe]
      · rw [if_neg hp]
        have hpe : ¬ p.1 = k := by simpa using hp
        have hk : (k == p.1) = false := by simpa using fun h => hpe h.symm
        simp only [List.lookup, hk]
        exact ih (hany.resolve_left hp)
  · rw [if_neg hany]
    induction m with
    | nil => simp [List.lookup]
    | cons p rest ih =>
      simp only [List.any_cons, Bool.or_eq_true, not_or] at hany
      obtain ⟨h1, h2⟩ := hany
      have hpe : ¬ p.1 = k := by simpa using h1
      have hk : (k == p.1) = false := by simpa using fun h => hpe h.symm
      simp only [List.cons_append, List.lookup, hk]
      exact ih h2

theorem keys_mapSet (m : List (List Char × Val)) (k : List Char) (v : Val)
    (h : m.any (fun p => p.1 == k) = true) :
    (mapSet m k v).map Prod.fst = m.map Prod.fst := by
  unfold mapSet
  rw [if_pos h]
  clear h
  induction m with
  | nil => rfl
  | cons p rest ih =>
    simp only [List.map_cons]
    by_cases hpk : (p.1 == k) = true
    · rw [if_pos hpk, ih]
    · rw [if_neg hpk, ih]

set_option maxRecDepth 40000 in
/-- C8: decoding `a = 1\na = 2\n` yields a single-entry table holding
the value of the last assignment, and the embedded `Map.set` semantics
(`mapSet`, the source's `result.set(key, value)`) guarantees in general
that lookup of the assigned key yields the newly assigned value, that
re-assigning an existing key leaves the key sequence (hence the entry's
original position) unchanged, and that a fresh key is appended at the
end; a three-entry decode shows the overwritten key staying at its
first-assignment position. -/
theorem duplicate_key_overwrite (m : List (List Char × Val)) (k : List Char) (v : Val) :
    decode 0 "a = 1\na = 2\n".data =
      .ok [("a".data, Val.num (.fin ⟨2, 1⟩))] ∧
    decode 0 "a = 1\nb = 2\na = 3\n".data =
      .ok [("a".data, Val.num (.fin ⟨3, 1⟩)), ("b".data, Val.num (.fin ⟨2, 1⟩))] ∧
    List.lookup k (mapSet m k v) = some v ∧
    (m.any (fun p => p.1 == k) = true →
      (mapSet m k v).map Prod.fst = m.map Prod.fst) ∧
    (m.any (fun p => p.1 == k) = false →
      mapSet m k v = m ++ [(k, v)]) := by
  refine ⟨by rfl, by rfl, lookup_mapSet m k v, keys_mapSet m k v, ?_⟩
  intro h
  unfold mapSet
  rw [if_neg (by simp [h])]

/-- witness for `duplicate_key_overwrite`: both hypotheses discharged on
concrete maps — re-assigning `a` keeps the key list, a fresh `b` is
appended. -/
theorem duplicate_key_overwrite_witness :
    ((mapSet [("a".data, Val.num (.fin ⟨1, 1⟩))] "a".data
        (Val.num (.fin ⟨2, 1⟩))).map Prod.fst =
      [("a".data, Val.num (.fin ⟨1, 1⟩))].map Prod.fst) ∧
    mapSet [] "b".data Val.nullV = [] ++ [("b".data, Val.nullV)] := by
  constructor
  · exact (duplicate_key_overwrite [("a".data, Val.num (.fin ⟨1, 1⟩))] "a".data
      (Val.num (.fin ⟨2, 1⟩))).2.2.2.1 (by decide)
  · exact (duplicate_key_overwrite [] "b".data Val.nullV).2.2.2.2 (by rfl)

set_option maxRecDepth 40000 in
/-- C9: decoding `a = \n` fails with a message that names "value" among
the expected classes, reports the reached new line, and is annotated
with the entry key `a`; and in general, whenever the root entries loop
has read an entry key followed by `=` and the value phase of `matchNext`
raises an error `e`, the loop re-raises it as
`e ++ " at entry " ++ repr(key)`. -/
theorem missing_value_error_annotated (fuel : Nat) (tzMin : Int)
    (cs rest k e : List Char) (result : List (List Char × Val))
    (sect : Option (List Char)) (t : PTok)
    (hk : parseGo fuel tzMin
        (.next cs [.KEY, .NEW_LINE, .END_OF_INPUT] (some .FIRST_LEVEL) none false) =
      .ok (.tok t rest))
    (htyp : ¬ t.typ = .END_OF_INPUT) (hend1 : ¬ t.endc = some ']')
    (hend2 : t.endc = some '=') (hpay : t.pay = .key k)
    (hv : parseGo fuel tzMin (.next rest [.VALUE] none none false) = .err e) :
    decode 0 "a = \n".data =
      .err ("value expected but new line reached".data ++ " at entry ".data ++
        reprStr60 "a".data) ∧
    List.IsInfix "value".data
      ("value expected but new line reached".data ++ " at entry ".data ++ reprStr60 "a".data) ∧
    List.IsInfix "new line".data
      ("value expected but new line reached".data ++ " at entry ".data ++ reprStr60 "a".data) ∧
    parseGo (fuel + 1) tzMin (.entriesLoop cs result sect) =
      .err (e ++ " at entry ".data ++ reprStr60 k) := by
  refine ⟨by rfl, by decide, by decide, ?_⟩
  simp only [parseGo]
  rw [hk]
  simp [htyp, hend1, hend2, hpay, hv]

set_option maxRecDepth 40000 in
/-- witness for `missing_value_error_annotated` on the claim's input
`a = \n`: the key phase yields the key token for `a` with `=` as its
end character, the value phase fails on the remaining ` \n`, and the
loop re-raises that error annotated with the key. -/
theorem missing_value_error_annotated_witness :
    parseGo 21 0 (.entriesLoop "a = \n".data [] none) =
      .err ("value expected but new line reached".data ++ " at entry ".data ++
        reprStr60 "a".data) :=
  (missing_value_error_annotated 20 0 "a = \n".data " \n".data "a".data
    "value expected but new line reached".data [] none
    ⟨.key "a".data, some '=', .KEY⟩ (by rfl) (by decide) (by decide) (by rfl) (by rfl)
    (by rfl)).2.2.2

/-- the trigger class exactly as the spec words it: `-`, `/`, `:` or a
letter of "utc" in any case — without `+` (claim-side definition, for
comparison with the source's `isDateTriggerCh`). -/
def isClaimTriggerCh (c : Char) : Bool :=
  c == '-' || c == ':' || c == '/' ||
  lowerCh c == 'u' || lowerCh c == 't' || lowerCh c == 'c'

theorem trigger_eq (c : Char) : isDateTriggerCh c = (isClaimTriggerCh c || c == '+') := by
  rw [Bool.eq_iff_iff]
  simp only [isDateTriggerCh, isClaimTriggerCh, Bool.or_eq_true]
  tauto

theorem hasDateTrigger_eq (raw : List Char) :
    hasDateTrigger raw = raw.any (fun c => isClaimTriggerCh c || c == '+') := by
  unfold hasDateTrigger
  induction raw with
  | nil => rfl
  | cons c cs ih => simp [List.any_cons, ih, trigger_eq]

set_option maxRecDepth 40000 in
set_option maxHeartbeats 2000000 in
/-- C5 (corrected): the date re-route trigger of `matchNumber` is the
character class `[-+:/utc]` (case-insensitive) — the claimed set *plus*
`+`; consequently `1e+5`, which contains none of the claimed characters,
is still handed to the date parser, and `a = 1e+5\n` decodes to a
date-invalid error instead of the number 100000.  The re-route itself
is an iff: with a trigger character the raw text goes verbatim to
`matchDate`, and without one the result can never be a date value. -/
theorem number_date_reroute (tzMin : Int) (cs : List Char) (start : Char)
    (raw0 : List Char) (endc : Option Char) (rest : List Char)
    (hm : matchUntil cs DELIMITERS true none = .ok (raw0, endc, rest)) :
    decode 0 "a = 1e+5\n".data =
      .err ("date ".data ++ reprStr60 "1e+5".data ++ " invalid".data ++
        " at entry ".data ++ reprStr60 "a".data) ∧
    "1e+5".data.any isClaimTriggerCh = false ∧
    hasDateTrigger "1e+5".data = true ∧
    (∀ raw, hasDateTrigger raw = raw.any (fun c => isClaimTriggerCh c || c == '+')) ∧
    (hasDateTrigger (jsTrim ((if start == '-' ∨ start == '+' then [] else [start]) ++ raw0)) =
        true →
      matchNumber tzMin cs start =
        (match matchDate tzMin
            (jsTrim ((if start == '-' ∨ start == '+' then [] else [start]) ++ raw0)) with
         | .error e => .error e
         | .ok d => .ok (⟨.val (.date d), endc, .VALUE⟩, rest))) ∧
    (hasDateTrigger (jsTrim ((if start == '-' ∨ start == '+' then [] else [start]) ++ raw0)) =
        false →
      ∀ d endc2 rest2,
        matchNumber tzMin cs start ≠ .ok (⟨.val (.date d), endc2, .VALUE⟩, rest2)) := by
  refine ⟨by rfl, by rfl, by rfl, hasDateTrigger_eq, ?_, ?_⟩
  · intro htrig
    unfold matchNumber
    rw [hm]
    simp only [htrig, if_true]
  · intro htrig d endc2 rest2
    unfold matchNumber
    rw [hm]
    simp only [htrig, Bool.false_eq_true, if_false]
    repeat' split
    all_goals simp

set_option maxRecDepth 40000 in
/-- witness for `number_date_reroute` on the raw text `1e+5` (start
character `1`, remaining input `e+5\n`): the trigger fires and the raw
text is handed to `matchDate`, which rejects it. -/
theorem number_date_reroute_witness :
    matchNumber 0 "e+5\n".data '1' =
      (match matchDate 0
          (jsTrim ((if ('1' == '-' ∨ '1' == '+') then [] else ['1']) ++ "e+5".data)) with
       | .error e => .error e
       | .ok d => .ok (⟨.val (.date d), some '\n', .VALUE⟩, ([] : List Char))) :=
  (number_date_reroute 0 "e+5\n".data '1' "e+5".data (some '\n') [] (by rfl)).2.2.2.2.1
    (by rfl)

set_option maxRecDepth 40000 in
/-- C7 (counterexample): an input whose value graph contains a reachable
cycle does not always raise the circular-reference error: in a root
table whose first entry has the invalid key `bad k` and whose second
entry is a self-containing array, the key error is raised first.  So
"encoding any input whose graph contains a cycle raises the
circular-reference error" fails as stated; the cycle check only governs
the traversal that reaches it. -/
theorem cycle_error_not_always_circular :
    hEncode 20 0 [.table [("bad k".data, .leaf .nullV), ("c".data, .ref 1)], .arr [.ref 1]] 0 =
      .err (.invalidKeyChar ' ' "bad k".data) ∧
    Res.err (EncErr.invalidKeyChar ' ' "bad k".data) ≠
      (Res.err EncErr.circular : Res EncErr HOut) :=
  ⟨by rfl, by simp⟩

set_option maxRecDepth 40000 in
/-- C7 (amended): every array/table begins rendering with the identity
membership check on the in-progress set — a node id already registered
raises the circular-reference error immediately, for arrays and tables
alike; a self-containing array and a two-array mutual cycle raise it
through `hEncode`; and an acyclic heap in which the same array object
occurs in two sibling positions encodes without error, because a node is
removed from the set when its rendering completes. -/
theorem inprogress_registration (heap : Heap) (fuel : Nat) (tzMin : Int)
    (inProg : List Nat) (n : Nat) (xs : List HVal)
    (es : List (List Char × HVal)) (level : Nat)
    (hmem : inProg.contains n = true) :
    hEncodeGo heap (fuel + 1) tzMin (.array inProg n xs level) = .err .circular ∧
    hEncodeGo heap (fuel + 1) tzMin (.mapTable inProg n es level) = .err .circular ∧
    hEncode 20 0 [.table [("a".data, .ref 1)], .arr [.ref 1]] 0 = .err .circular ∧
    hEncode 20 0 [.table [("a".data, .ref 1)], .arr [.ref 2], .arr [.ref 1]] 0 =
      .err .circular ∧
    hEncode 20 0 [.table [("a".data, .ref 1), ("b".data, .ref 1)],
        .arr [.leaf (.num (.fin ⟨1, 1⟩))]] 0 = .ok "a = [1]\nb = [1]".data := by
  have hm : n ∈ inProg := by simpa using hmem
  refine ⟨?_, ?_, by rfl, by rfl, by rfl⟩
  · simp [hEncodeGo, hm]
  · simp [hEncodeGo, hm]

/-- witness for `inprogress_registration`: a node id on the in-progress
list is rejected as circular at both the array and the table entry
points. -/
theorem inprogress_registration_witness :
    hEncodeGo [] 1 0 (.array [5] 5 [] 2) = .err .circular ∧
    hEncodeGo [] 1 0 (.mapTable [5] 5 [] 2) = .err .circular :=
  ⟨(inprogress_registration [] 0 0 [5] 5 [] [] 2 (by rfl)).1,
   (inprogress_registration [] 0 0 [5] 5 [] [] 2 (by rfl)).2.1⟩

/-! ## C1: the round trip on scalar documents -/

set_option maxRecDepth 40000 in
/-- C5 (counterexample): the raw text `1e+5` contains none of the
claimed trigger characters (`-`, `/`, `:`, letters of "utc"), yet
decoding `a = 1e+5\n` hands it to the date parser — the actual trigger
class also contains `+` — and fails with a date-invalid error instead of
producing the number 100000. -/
theorem plus_reroutes_number_to_date :
    "1e+5".data.any isClaimTriggerCh = false ∧
    decode 0 "a = 1e+5\n".data =
      .err ("date ".data ++ reprStr60 "1e+5".data ++ " invalid".data ++
        " at entry ".data ++ reprStr60 "a".data) :=
  ⟨by rfl, by rfl⟩

end TomlSpec
